import Mathlib

/-
  Verification development for pangraph/tree.py: the neighbor-joining tree
  construction, the progressive merge engine, the distance-matrix loader and
  the tree (de)serialization.  Floats are modelled as exact rationals, numpy
  matrices as lists of rows, and the external sequence-graph collaborator as
  an abstract interface record.
-/

namespace Pangraph

/-! ## Distance matrices (numpy 2-D float arrays as lists of rows) -/

abbrev Mat := List (List ℚ)

/-- Entry access `D[i, j]` (out-of-range reads default to 0; all uses are
in range under the squareness hypotheses). -/
def mget (D : Mat) (i j : ℕ) : ℚ := (D.getD i []).getD j 0

/-- `D` is an `n` by `n` matrix. -/
def Square (D : Mat) (n : ℕ) : Prop := D.length = n ∧ ∀ r ∈ D, r.length = n

instance (D : Mat) (n : ℕ) : Decidable (Square D n) := by
  unfold Square
  infer_instance

/-- `np.sum(D[i,:])`. -/
def rowsum (D : Mat) (i : ℕ) : ℚ := (D.getD i []).sum

/-- Column sum: entry `j` of `np.sum(D, axis=0)`. -/
def colsum (D : Mat) (j : ℕ) : ℚ := (D.map (fun r => r.getD j 0)).sum

/-! ## The Q criterion and pair selection (functions q and minpair) -/

/-- The Q-criterion matrix of `Tree.nj`:
`Q = (n-2)*D - (np.sum(D,axis=0,keepdims=True) + np.sum(D,axis=1,keepdims=True))`
followed by `np.fill_diagonal(Q, np.inf)`.  The `+inf` diagonal is the top
element of `WithTop`. -/
def Qmat (D : Mat) (i j : ℕ) : WithTop ℚ :=
  if i = j then ⊤
  else ((((D.length : ℚ) - 2) * mget D i j - (colsum D j + rowsum D i) : ℚ) : WithTop ℚ)

/-- Row-major scan order of all index pairs of an `n` by `n` matrix, the
order in which `np.argmin` scans the flattened array. -/
def scanList (n : ℕ) : List (ℕ × ℕ) :=
  (List.range n).flatMap (fun i => (List.range n).map (fun j => (i, j)))

/-- First-minimum fold: `np.argmin` keeps the first occurrence of the
minimum, so the accumulator is replaced only on a strictly smaller value. -/
def foldMin (f : ℕ × ℕ → WithTop ℚ) : ℕ × ℕ → List (ℕ × ℕ) → ℕ × ℕ
  | a, [] => a
  | a, x :: l => foldMin f (if f x < f a then x else a) l

/-- `np.unravel_index(np.argmin(q), q.shape)` before the `i > j` swap. -/
def minpairRaw (D : Mat) : ℕ × ℕ :=
  match scanList D.length with
  | [] => (0, 0)
  | p :: ps => foldMin (fun x => Qmat D x.1 x.2) p ps

/-- The function `minpair` of `Tree.nj`: the row-major argmin of Q with the
two indices swapped into increasing order. -/
def minpair (D : Mat) : ℕ × ℕ :=
  let r := minpairRaw D
  if r.1 > r.2 then (r.2, r.1) else r

/-! ## Branch lengths (function pairdists) -/

/-- The uncorrected branch lengths of `pairdists`:
`d1 = .5*D[i,j] + 1/(2*(n-2)) * (np.sum(D[i,:]) - np.sum(D[j,:]))` and
`d2 = D[i,j] - d1`. -/
def pairdistsRaw (D : Mat) (i j : ℕ) : ℚ × ℚ :=
  let n : ℚ := (D.length : ℚ)
  let d1 : ℚ := mget D i j / 2 + 1 / (2 * (n - 2)) * (rowsum D i - rowsum D j)
  (d1, mget D i j - d1)

/-- The negative-branch correction of `pairdists`:
`if d1 < 0: d2 -= d1; d1 = 0` then `if d2 < 0: d1 -= d2; d2 = 0`. -/
def correctPair : ℚ × ℚ → ℚ × ℚ
  | (a, b) =>
    let p : ℚ × ℚ := if a < 0 then ((0 : ℚ), b - a) else (a, b)
    if p.2 < 0 then (p.1 - p.2, (0 : ℚ)) else p

/-- `dnew = .5*(D[i,:] + D[j,:] - D[i,j])` of `pairdists`. -/
def dnewVec (D : Mat) (i j : ℕ) : List ℚ :=
  (List.range (D.getD i []).length).map
    (fun k => (mget D i k + mget D j k - mget D i j) / 2)

/-- The function `pairdists` of `Tree.nj`: corrected branch lengths plus the
merged distance row. -/
def pairdists (D : Mat) (i j : ℕ) : (ℚ × ℚ) × List ℚ :=
  (correctPair (pairdistsRaw D i j), dnewVec D i j)

/-! ## The Node/Tree model -/

/-- A tree node: `name`, branch length `dist` (`none` until computed) and
the ordered children.  The `parent` back-reference of the Python class is
only used for relinking and is not part of the value model. -/
inductive NTree : Type where
  | node (name : String) (dist : Option ℚ) (children : List NTree)

def NTree.name : NTree → String
  | .node n _ _ => n

def NTree.dist : NTree → Option ℚ
  | .node _ d _ => d

def NTree.children : NTree → List NTree
  | .node _ _ c => c

/-- Direct assignment `node.dist = d` (no clamping). -/
def NTree.withDist : NTree → ℚ → NTree
  | .node n _ cs, d => .node n (some d) cs

/-- `Node.new_parent`: re-attaches a node under a new parent and sets
`self.dist = dist if dist > 0 else 0`. -/
def new_parent (t : NTree) (d : ℚ) : NTree :=
  .node t.name (some (if d > 0 then d else 0)) t.children

def digitChar : ℕ → Char
  | 0 => '0' | 1 => '1' | 2 => '2' | 3 => '3' | 4 => '4'
  | 5 => '5' | 6 => '6' | 7 => '7' | 8 => '8' | _ => '9'

/-- Decimal digits of `n`, fuel-based so it reduces in the kernel. -/
def natDigitsAux : ℕ → ℕ → List Char
  | 0, _ => []
  | fuel + 1, n => if n = 0 then [] else natDigitsAux fuel (n / 10) ++ [digitChar (n % 10)]

/-- The zero-padded `NODE_` name of a fresh internal node. -/
def nodeName (idx : ℕ) : String :=
  let ds := if idx = 0 then ['0'] else natDigitsAux (idx + 1) idx
  String.mk (['N', 'O', 'D', 'E', '_'] ++ (List.replicate (5 - ds.length) '0' ++ ds))

/-! ## One join step and the joining loop of Tree.nj -/

/-- `D[i,:] = dnew`. -/
def setRowI (D : Mat) (i : ℕ) (dn : List ℚ) : Mat := D.set i dn

/-- `D[:,i] = dnew`: entry `i` of every row `k` becomes `dnew[k]`. -/
def setColI (D : Mat) (i : ℕ) (dn : List ℚ) : Mat :=
  (List.range D.length).map (fun k => (D.getD k []).set i (dn.getD k 0))

/-- `D[i,i] = 0`. -/
def zeroDiagI (D : Mat) (i : ℕ) : Mat := D.set i ((D.getD i []).set i 0)

/-- `np.delete` of row `j` and column `j`. -/
def dropJ (D : Mat) (j : ℕ) : Mat := (D.eraseIdx j).map (fun r => r.eraseIdx j)

/-- Matrix update of one join: `D[i,:] = dnew`, `D[:,i] = dnew`,
`D[i,i] = 0`, then delete row `j` and column `j`. -/
def joinMat (D : Mat) (i j : ℕ) (dn : List ℚ) : Mat :=
  dropJ (zeroDiagI (setColI (setRowI D i dn) i dn) i) j

/-- Root-children update of one join: the new internal node adopts the
children at `i` and `j` (with branch lengths set through
`Node.new_parent`), replaces entry `i` and entry `j` is popped. -/
def joinChildren (cs : List NTree) (i j idx : ℕ) (d1 d2 : ℚ) : List NTree :=
  let nd : NTree := NTree.node (nodeName idx) none
      [new_parent (cs.getD i (NTree.node "" none [])) d1,
       new_parent (cs.getD j (NTree.node "" none [])) d2]
  (cs.set i nd).eraseIdx j

/-- One iteration of the joining loop (the function `join` of `Tree.nj`):
select the Q-minimal pair, build the new internal node, rewrite row and
column `i` with the merged distances, zero `D[i,i]`, delete row and column
`j`, replace root child `i` by the new node and remove root child `j`. -/
def joinStep (s : Mat × List NTree × ℕ) : Mat × List NTree × ℕ :=
  (joinMat s.1 (minpair s.1).1 (minpair s.1).2
    (pairdists s.1 (minpair s.1).1 (minpair s.1).2).2,
   joinChildren s.2.1 (minpair s.1).1 (minpair s.1).2 s.2.2
    (pairdists s.1 (minpair s.1).1 (minpair s.1).2).1.1
    (pairdists s.1 (minpair s.1).1 (minpair s.1).2).1.2,
   s.2.2 + 1)

/-- The `while mtx.shape[0] > 2` loop, with fuel (each step shrinks the
matrix by one, so fuel `D.length` always suffices). -/
def njLoop : ℕ → Mat × List NTree × ℕ → Mat × List NTree × ℕ
  | 0, s => s
  | fuel + 1, s => if s.1.length > 2 then njLoop fuel (joinStep s) else s

/-- The initial root children: one childless leaf `Node` per name. -/
def njInit (names : List String) : List NTree :=
  names.map (fun nm => NTree.node nm none [])

/-- State of the joining loop after it exits. -/
def njFinal (D : Mat) (names : List String) : Mat × List NTree × ℕ :=
  njLoop D.length (D, njInit names, 0)

/-- The final root split of `Tree.nj`: `d = mtx[0,1]` is halved onto the
two surviving root children (direct assignment, no clamping). -/
def setRootDists (cs : List NTree) (d : ℚ) : List NTree :=
  match cs with
  | c0 :: c1 :: rest => c0.withDist (d / 2) :: c1.withDist (d / 2) :: rest
  | other => other

/-- `Tree.nj`: neighbor joining over matrix `D` and leaf `names`. -/
def nj (D : Mat) (names : List String) : NTree :=
  NTree.node "ROOT" (some 0)
    (setRootDists (njFinal D names).2.1 (mget (njFinal D names).1 0 1))

/-- `Tree.nj` with the process-wide shared list that backs the default
`children=[]` argument of `Node.__init__` made explicit.  `Tree.__init__`
creates the root as a ROOT node without passing `children`, so
every root aliases the single default list object; `nj` then appends the
leaves to it in place.  The function returns the produced tree together
with the contents of the shared list after the call. -/
def njShared (D : Mat) (names : List String) (shared : List NTree) :
    NTree × List NTree :=
  let fin := njLoop D.length (D, shared ++ njInit names, 0)
  let cs := setRootDists fin.2.1 (mget fin.1 0 1)
  (NTree.node "ROOT" (some 0) cs, cs)

/-! ## Leaves and branch-length checks -/

mutual

/-- Names of the leaves of a tree, in postorder (`get_leafs` of `Tree`
filters `postorder()` by `is_leaf()`). -/
def leafNames : NTree → List String
  | .node n _ cs => if cs.isEmpty then [n] else leafNamesL cs

def leafNamesL : List NTree → List String
  | [] => []
  | t :: ts => leafNames t ++ leafNamesL ts

end

mutual

/-- Every resolved (`some`) branch length in the tree is nonnegative. -/
def distsOk : NTree → Bool
  | .node _ d cs =>
    (match d with | none => true | some q => decide (0 ≤ q)) && distsOkL cs

def distsOkL : List NTree → Bool
  | [] => true
  | t :: ts => distsOk t && distsOkL ts

end

/-- Loop invariant piece: below every current root child, all resolved
branch lengths are nonnegative. -/
def ForestInv (cs : List NTree) : Prop := ∀ c ∈ cs, distsOkL c.children = true

/-- Row-major scan order on index pairs (the order of `scanList`). -/
def lexLt (p q : ℕ × ℕ) : Prop := p.1 < q.1 ∨ (p.1 = q.1 ∧ p.2 < q.2)

/-! ## The merge engine (Tree.align internals)

The per-node sequence-graph structure is an external collaborator
(`Graph` lives outside this module and is consumed through a narrow
contract, spec section 6).  It is modelled as an abstract interface: a
type of graphs plus the four operations `merge0` consumes.  File paths
passed to `Graph.union` always point at material just written from the
participating graphs, so the alignment passes are functions of the graphs
themselves. -/

/-- The external sequence-graph interface used by `merge0`:
`fuse` is `Graph.fuse`; `unionPair g gA gB` is the first consolidation
pass `graph.union(fapath1, fapath2, ...)` run on the fused graph `g` of
children `gA`, `gB`; `unionSelf` is the self-map pass
`graph.union(itr, itr, ...)`; `ratioOf` is `Graph.compress_ratio`. -/
structure GraphAPI (G : Type) where
  fuse : G → G → G
  unionPair : G → G → G → G × Bool
  unionSelf : G → G × Bool
  ratioOf : G → ℚ

/-- Iteration cap of the self-refinement loop. -/
def MAXSELFMAPS : ℕ := 25

/-- The `for i in range(MAXSELFMAPS)` self-refinement loop of `merge0`:
each round runs one self union pass; if the pass reports that no work
remains, its result is returned; when the rounds are exhausted the Python
function falls off the loop and returns `None`. -/
def selfLoop {G : Type} (api : GraphAPI G) : G → ℕ → Option G
  | _, 0 => none
  | g, fuel + 1 =>
    let r := api.unionSelf g
    if r.2 then selfLoop api r.1 fuel else some r.1

/-- Graph after `k` self union passes starting from `g`. -/
def selfIter {G : Type} (api : GraphAPI G) (g : G) : ℕ → G
  | 0 => g
  | k + 1 => (api.unionSelf (selfIter api g k)).1

/-- The `moreWorkRemaining` flag reported by pass number `k` (counting
from 0) of the self-refinement loop started at `g`. -/
def continAt {G : Type} (api : GraphAPI G) (g : G) (k : ℕ) : Bool :=
  (api.unionSelf (selfIter api g k)).2

/-- The merge candidate of `merge0`: fuse the two children and run one
alignment pass over the result. -/
def mergeCandidate {G : Type} (api : GraphAPI G) (g1 g2 : G) : G :=
  (api.unionPair (api.fuse g1 g2) g1 g2).1

/-- The acceptance threshold of `merge0`:
`cutoff = max(0, min(ratio(A), ratio(B)) - .05)`. -/
def mergeCutoff {G : Type} (api : GraphAPI G) (g1 g2 : G) : ℚ :=
  max 0 (min (api.ratioOf g1) (api.ratioOf g2) - 5 / 100)

/-- The function `merge0` of `Tree.align`: build the candidate, reject it
when its compression ratio falls below the threshold (returning `None`,
not raising), otherwise run the self-refinement loop. -/
def merge0 {G : Type} (api : GraphAPI G) (g1 g2 : G) : Option G :=
  if api.ratioOf (mergeCandidate api g1 g2) < mergeCutoff api g1 g2 then none
  else selfLoop api (mergeCandidate api g1 g2) MAXSELFMAPS

/-! ## The distance-matrix loader (function parse)

File reading and float literal parsing are external; a parsed file is a
row count `nrows` plus one `(first token, values)` pair per data line. -/

/-- Splitting a token on slashes, over its character list. -/
def splitSlash : List Char → List (List Char)
  | [] => [[]]
  | c :: cs =>
    let r := splitSlash cs
    if c = '/' then [] :: r
    else
      match r with
      | s :: rest => (c :: s) :: rest
      | [] => [[c]]

/-- The derived identifier: final path segment of the first token, with
the last three characters removed. -/
def derivedName (tok : String) : String :=
  String.mk ((splitSlash tok.data).getLastD []).dropLast.dropLast.dropLast

/-- `np.zeros((nrows, nrows))`. -/
def zerosMat (n : ℕ) : Mat := List.replicate n (List.replicate n 0)

/-- `M[li, :(li+1)] = vals` (row `li` gets `vals` written over its first
`li+1` entries; the loader always supplies exactly `li+1` values). -/
def writeRow (M : Mat) (li : ℕ) (vals : List ℚ) : Mat :=
  M.set li (vals.take (li + 1) ++ (M.getD li []).drop (li + 1))

/-- The line loop of `parse`: a line whose derived name was already seen
only records its index in `del_idxs`; otherwise the name is appended and
the line values are written into row `li`. -/
def parseRowsAux (li : ℕ) (M : Mat) (names : List String) (dels : List ℕ) :
    List (String × List ℚ) → Mat × List String × List ℕ
  | [] => (M, names, dels)
  | (tok, vals) :: rest =>
    if derivedName tok ∈ names then
      parseRowsAux (li + 1) M names (dels ++ [li]) rest
    else
      parseRowsAux (li + 1) (writeRow M li vals) (names ++ [derivedName tok]) dels rest

/-- `np.delete(l, dels, axis=0)` for a strictly increasing index list:
erase the listed positions, largest first so the earlier indices stay
valid. -/
def deleteIdxs {α : Type} (l : List α) (dels : List ℕ) : List α :=
  dels.foldr (fun i acc => acc.eraseIdx i) l

/-- `M = 1 - M`. -/
def oneMinus (M : Mat) : Mat := M.map (fun r => r.map (fun x => 1 - x))

/-- `nodiag(M + M.T)/2`: off-diagonal entries are averaged with their
transposes, the diagonal is zeroed. -/
def symmetrize (M : Mat) : Mat :=
  (List.range M.length).map (fun i =>
    (List.range M.length).map (fun j =>
      if i = j then 0 else (mget M i j + mget M j i) / 2))

/-- The raw kept matrix of `parse`: the filled lower-triangular matrix
with the duplicate rows and columns deleted (the state right before
`M = 1 - M`). -/
def parseKept (nrows : ℕ) (lines : List (String × List ℚ)) : Mat :=
  (deleteIdxs (parseRowsAux 0 (zerosMat nrows) [] [] lines).1
      (parseRowsAux 0 (zerosMat nrows) [] [] lines).2.2).map
    (fun r => deleteIdxs r (parseRowsAux 0 (zerosMat nrows) [] [] lines).2.2)

/-- The function `parse`: run the line loop, delete the duplicate rows
and columns, convert via `1 - value` and symmetrize. -/
def parse (nrows : ℕ) (lines : List (String × List ℚ)) : Mat × List String :=
  (symmetrize (oneMinus (parseKept nrows lines)),
   (parseRowsAux 0 (zerosMat nrows) [] [] lines).2.1)

/-- First-occurrence deduplication (reference form for the name list of
the loader), with the list of already seen names as accumulator. -/
def dedupFirstAux (seen : List String) : List String → List String
  | [] => []
  | x :: xs =>
    if x ∈ seen then dedupFirstAux seen xs
    else x :: dedupFirstAux (seen ++ [x]) xs

def dedupFirst (l : List String) : List String := dedupFirstAux [] l

/-! ## JSON (de)serialization of trees (write_json / from_json)

The JSON text codec is external and faithful; a serialized tree is
modelled by its dictionary form.  The external graph object is likewise
modelled by its own dictionary blob, over which `Graph.to_dict` and
`Graph.from_dict` are mutually inverse (the serialization contract of the
collaborator, spec section 6), hence the `graph` field below carries the
blob itself. -/

/-- A full `Node` as `Tree.align` and the serializer see it: `name`,
`dist`, `children`, `fapath` and the optional graph (by its dict blob). -/
inductive PNode : Type where
  | node (name : String) (dist : Option ℚ) (children : List PNode)
      (fapath : String) (graph : Option String)

def PNode.name : PNode → String
  | .node n _ _ _ _ => n

/-- The dictionary produced by `Node.to_json` and consumed by
`Node.from_dict`. -/
inductive NodeDict : Type where
  | mk (name : String) (dist : Option ℚ) (children : List NodeDict)
      (fapath : String) (graph : Option String)

mutual

/-- `Node.to_json`: the dict with `name`, `dist`, serialized children in
order, `fapath`, and the serialized graph when present. -/
def PNode.to_json : PNode → NodeDict
  | .node n d cs f g => NodeDict.mk n d (toJsonList cs) f g

def toJsonList : List PNode → List NodeDict
  | [] => []
  | t :: ts => PNode.to_json t :: toJsonList ts

end

mutual

/-- `Node.from_dict`: rebuild the node, its children recursively (in
order), `fapath` and the graph when present. -/
def Node.from_dict : NodeDict → PNode
  | .mk n d cs f g => PNode.node n d (fromDictList cs) f g

def fromDictList : List NodeDict → List PNode
  | [] => []
  | t :: ts => Node.from_dict t :: fromDictList ts

end

mutual

/-- `Tree.get_leafs`: the childless nodes, in postorder. -/
def PNode.getLeafs : PNode → List PNode
  | .node n d cs f g =>
    if cs.isEmpty then [PNode.node n d cs f g] else getLeafsList cs

def getLeafsList : List PNode → List PNode
  | [] => []
  | t :: ts => PNode.getLeafs t ++ getLeafsList ts

end

mutual

/-- Leaf names of a `PNode` tree, in postorder. -/
def PNode.leafNames : PNode → List String
  | .node n _ cs _ _ => if cs.isEmpty then [n] else leafNamesPL cs

def leafNamesPL : List PNode → List String
  | [] => []
  | t :: ts => PNode.leafNames t ++ leafNamesPL ts

end

/-- The lookup of key `k` in the dict mapping each leaf name to its leaf
node: a Python dict comprehension keeps the last binding of a repeated
key, so this finds the last leaf with the given name. -/
def lookupLeaf (root : PNode) (k : String) : PNode :=
  ((PNode.getLeafs root).reverse.find? (fun n => n.name == k)).getD
    (PNode.node "" none [] "" none)

/-- A `Tree` with attached sequences: `seqs` maps leaf nodes to sequence
strings (`Seq` wraps a plain string). -/
structure PTree : Type where
  root : PNode
  seqs : List (PNode × String)

/-- The serialized form: the tree dict plus the name-keyed sequence map. -/
structure TreeDict : Type where
  tree : NodeDict
  seqs : List (String × String)

/-- `Tree.write_json`: serialize the root and key the sequences by leaf
name. -/
def write_json (T : PTree) : TreeDict :=
  { tree := T.root.to_json, seqs := T.seqs.map (fun p => (p.1.name, p.2)) }

/-- `Tree.from_json`: rebuild the root, then re-key the sequences by
looking each name up among the leaves of the rebuilt tree. -/
def from_json (d : TreeDict) : PTree :=
  { root := Node.from_dict d.tree
  , seqs := d.seqs.map (fun p => (lookupLeaf (Node.from_dict d.tree) p.1, p.2)) }

/-! ## Concrete instances used by the witnesses and counterexamples -/

/-- Interface instance whose self-map passes always report more work. -/
def apiMore : GraphAPI ℕ :=
  { fuse := fun a b => a + b
  , unionPair := fun g _ _ => (g, true)
  , unionSelf := fun g => (g, true)
  , ratioOf := fun _ => 1 }

/-- Interface instance whose first self-map pass reports no more work. -/
def apiStop : GraphAPI ℕ :=
  { fuse := fun a b => a + b
  , unionPair := fun g _ _ => (g, true)
  , unionSelf := fun g => (g + 1, false)
  , ratioOf := fun _ => 1 }

/-- Interface instance whose merge candidate falls below the threshold. -/
def apiLow : GraphAPI ℕ :=
  { fuse := fun _ _ => 1
  , unionPair := fun g _ _ => (g, true)
  , unionSelf := fun g => (g, true)
  , ratioOf := fun g => if g = 0 then 1 else 0 }

/-- Interface instance whose merge candidate passes the gate. -/
def apiHigh : GraphAPI ℕ :=
  { fuse := fun a b => a + b
  , unionPair := fun g _ _ => (g, true)
  , unionSelf := fun g => (g + 1, false)
  , ratioOf := fun _ => 2 }

/-- Concrete tree with attached sequences for the round-trip witness. -/
def leafA : PNode := PNode.node "A" (some (1 / 2)) [] "tmp/A" none
def leafB : PNode := PNode.node "B" (some (1 / 4)) [] "tmp/B" (some "gblob")
def treeW : PTree :=
  { root := PNode.node "ROOT" (some 0) [leafA, leafB] "tmp/ROOT" none
  , seqs := [(leafA, "ACGT"), (leafB, "GATTACA")] }

/-! # Theorems -/

/-! ## Scan order and first-minimum selection -/

theorem lexLt_asymm {p q : ℕ × ℕ} (h : lexLt p q) : ¬ lexLt q p := by
  rcases h with h | ⟨h1, h2⟩ <;> rintro (h3 | ⟨h4, h5⟩) <;> omega

theorem lexLt_irrefl (p : ℕ × ℕ) : ¬ lexLt p p := by
  rintro (h | ⟨h1, h2⟩) <;> omega

theorem foldMin_cons (f : ℕ × ℕ → WithTop ℚ) (a x : ℕ × ℕ) (l : List (ℕ × ℕ)) :
    foldMin f a (x :: l) = foldMin f (if f x < f a then x else a) l := rfl

theorem foldMin_mem (f : ℕ × ℕ → WithTop ℚ) (l : List (ℕ × ℕ)) :
    ∀ a, foldMin f a l = a ∨ foldMin f a l ∈ l := by
  induction l with
  | nil => intro a; left; rfl
  | cons x l ih =>
    intro a
    rw [foldMin_cons]
    rcases ih (if f x < f a then x else a) with h | h
    · rw [h]
      split
      · right; exact List.mem_cons_self _ _
      · left; rfl
    · right; exact List.mem_cons_of_mem _ h

theorem foldMin_le_init (f : ℕ × ℕ → WithTop ℚ) (l : List (ℕ × ℕ)) :
    ∀ a, f (foldMin f a l) ≤ f a := by
  induction l with
  | nil => intro a; exact le_refl _
  | cons x l ih =>
    intro a
    rw [foldMin_cons]
    refine le_trans (ih _) ?_
    split
    · exact le_of_lt (by assumption)
    · exact le_refl _

theorem foldMin_le_mem (f : ℕ × ℕ → WithTop ℚ) (l : List (ℕ × ℕ)) :
    ∀ a, ∀ x ∈ l, f (foldMin f a l) ≤ f x := by
  induction l with
  | nil => intro a x hx; exact absurd hx (List.not_mem_nil x)
  | cons y l ih =>
    intro a x hx
    rw [foldMin_cons]
    rcases List.mem_cons.mp hx with rfl | hx
    · refine le_trans (foldMin_le_init f l _) ?_
      split
      · exact le_refl _
      · exact le_of_not_lt (by assumption)
    · exact ih _ x hx

theorem foldMin_lt_init (f : ℕ × ℕ → WithTop ℚ) (l : List (ℕ × ℕ)) :
    ∀ a, foldMin f a l ≠ a → f (foldMin f a l) < f a := by
  induction l with
  | nil => intro a h; exact absurd rfl h
  | cons x l ih =>
    intro a h
    rw [foldMin_cons] at h ⊢
    by_cases hxa : f x < f a
    · rw [if_pos hxa] at h ⊢
      by_cases hr : foldMin f x l = x
      · rw [hr]; exact hxa
      · exact lt_trans (ih x hr) hxa
    · rw [if_neg hxa] at h ⊢
      exact ih a h

theorem foldMin_first (f : ℕ × ℕ → WithTop ℚ) (l : List (ℕ × ℕ)) :
    ∀ a, List.Pairwise lexLt (a :: l) →
      ∀ x ∈ a :: l, lexLt x (foldMin f a l) → f (foldMin f a l) < f x := by
  induction l with
  | nil =>
    intro a _ x hx hlt
    rcases List.mem_singleton.mp hx with rfl
    exact absurd hlt (lexLt_irrefl _)
  | cons y l ih =>
    intro a hp x hx hlt
    have hay : lexLt a y := (List.pairwise_cons.mp hp).1 y (List.mem_cons_self _ _)
    have hal : ∀ z ∈ l, lexLt a z := fun z hz =>
      (List.pairwise_cons.mp hp).1 z (List.mem_cons_of_mem _ hz)
    have hyl : List.Pairwise lexLt (y :: l) := (List.pairwise_cons.mp hp).2
    have hax : List.Pairwise lexLt (a :: l) :=
      List.pairwise_cons.mpr ⟨hal, (List.pairwise_cons.mp hyl).2⟩
    rw [foldMin_cons] at hlt ⊢
    rcases List.mem_cons.mp hx with rfl | hx
    · -- x = a
      by_cases hya : f y < f x
      · rw [if_pos hya] at hlt ⊢
        exact lt_of_le_of_lt (foldMin_le_init f l y) hya
      · rw [if_neg hya] at hlt ⊢
        exact ih x hax x (List.mem_cons_self _ _) hlt
    rcases List.mem_cons.mp hx with rfl | hx
    · -- x = y
      by_cases hya : f x < f a
      · rw [if_pos hya] at hlt ⊢
        exact ih x hyl x (List.mem_cons_self _ _) hlt
      · rw [if_neg hya] at hlt ⊢
        by_cases hra : foldMin f a l = a
        · rw [hra] at hlt
          exact absurd hlt (lexLt_asymm hay)
        · exact lt_of_lt_of_le (foldMin_lt_init f l a hra) (le_of_not_lt hya)
    · -- x ∈ l
      by_cases hya : f y < f a
      · rw [if_pos hya] at hlt ⊢
        exact ih y hyl x (List.mem_cons_of_mem _ hx) hlt
      · rw [if_neg hya] at hlt ⊢
        exact ih a hax x (List.mem_cons_of_mem _ hx) hlt

theorem mem_scanList {n : ℕ} {p : ℕ × ℕ} : p ∈ scanList n ↔ p.1 < n ∧ p.2 < n := by
  constructor
  · intro h
    rcases List.mem_flatMap.mp h with ⟨i, hi, hp⟩
    rcases List.mem_map.mp hp with ⟨j, hj, rfl⟩
    exact ⟨List.mem_range.mp hi, List.mem_range.mp hj⟩
  · rintro ⟨h1, h2⟩
    exact List.mem_flatMap.mpr ⟨p.1, List.mem_range.mpr h1,
      List.mem_map.mpr ⟨p.2, List.mem_range.mpr h2, rfl⟩⟩

theorem scanList_pairwise (n : ℕ) : List.Pairwise lexLt (scanList n) := by
  unfold scanList
  rw [List.pairwise_flatMap]
  constructor
  · intro i _
    rw [List.pairwise_map]
    exact (List.pairwise_lt_range n).imp (fun h => Or.inr ⟨rfl, h⟩)
  · have : List.Pairwise (· < ·) (List.range n) := List.pairwise_lt_range n
    refine this.imp ?_
    intro i1 i2 h x hx y hy
    rcases List.mem_map.mp hx with ⟨j1, _, rfl⟩
    rcases List.mem_map.mp hy with ⟨j2, _, rfl⟩
    exact Or.inl h

/-! ## Properties of minpair -/

theorem Qmat_diag (D : Mat) (a : ℕ) : Qmat D a a = ⊤ := by simp [Qmat]

theorem Qmat_offdiag (D : Mat) {a b : ℕ} (h : a ≠ b) :
    Qmat D a b =
      ((((D.length : ℚ) - 2) * mget D a b - (colsum D b + rowsum D a) : ℚ) : WithTop ℚ) := by
  simp [Qmat, h]

theorem Qmat_offdiag_lt_top (D : Mat) {a b : ℕ} (h : a ≠ b) : Qmat D a b < ⊤ := by
  rw [Qmat_offdiag D h]
  exact WithTop.coe_lt_top _

theorem minpairRaw_spec (D : Mat) (h2 : 2 ≤ D.length) :
    minpairRaw D ∈ scanList D.length ∧
    (∀ p ∈ scanList D.length,
        Qmat D (minpairRaw D).1 (minpairRaw D).2 ≤ Qmat D p.1 p.2) ∧
    (minpairRaw D).1 ≠ (minpairRaw D).2 ∧
    (∀ p ∈ scanList D.length, lexLt p (minpairRaw D) →
        Qmat D (minpairRaw D).1 (minpairRaw D).2 < Qmat D p.1 p.2) := by
  have h01 : ((0 : ℕ), (1 : ℕ)) ∈ scanList D.length :=
    mem_scanList.mpr ⟨by omega, by omega⟩
  have hex : ∃ p ps, scanList D.length = p :: ps := by
    cases hs : scanList D.length with
    | nil => rw [hs] at h01; exact absurd h01 (List.not_mem_nil _)
    | cons p ps => exact ⟨p, ps, rfl⟩
  obtain ⟨p, ps, hs⟩ := hex
  set f : ℕ × ℕ → WithTop ℚ := fun x => Qmat D x.1 x.2 with hf
  have hraw : minpairRaw D = foldMin f p ps := by
    unfold minpairRaw
    rw [hs]
  have hmem : minpairRaw D ∈ scanList D.length := by
    rw [hs, hraw]
    rcases foldMin_mem f ps p with h | h
    · rw [h]; exact List.mem_cons_self _ _
    · exact List.mem_cons_of_mem _ h
  have hmin : ∀ x ∈ scanList D.length, f (minpairRaw D) ≤ f x := by
    intro x hx
    rw [hs] at hx
    rw [hraw]
    rcases List.mem_cons.mp hx with rfl | hx
    · exact foldMin_le_init f ps x
    · exact foldMin_le_mem f ps p x hx
  have hne : (minpairRaw D).1 ≠ (minpairRaw D).2 := by
    intro heq
    have hle : f (minpairRaw D) ≤ f (0, 1) := hmin _ h01
    have htop : f (minpairRaw D) = ⊤ := by
      show Qmat D (minpairRaw D).1 (minpairRaw D).2 = ⊤
      rw [heq]; exact Qmat_diag D _
    rw [htop] at hle
    exact absurd (lt_of_le_of_lt hle (Qmat_offdiag_lt_top D (by omega)))
      (lt_irrefl ⊤)
  refine ⟨hmem, hmin, hne, ?_⟩
  intro x hx hlt
  rw [hs] at hx
  rw [hraw] at hlt ⊢
  have hpw : List.Pairwise lexLt (p :: ps) := by
    rw [← hs]; exact scanList_pairwise D.length
  exact foldMin_first f ps p hpw x hx hlt

theorem minpair_eq_swap (D : Mat) (h : (minpairRaw D).2 < (minpairRaw D).1) :
    minpair D = ((minpairRaw D).2, (minpairRaw D).1) := by
  simp [minpair, h]

theorem minpair_eq_raw (D : Mat) (h : ¬ (minpairRaw D).2 < (minpairRaw D).1) :
    minpair D = minpairRaw D := by
  simp [minpair, h]

theorem minpair_bounds (D : Mat) (h2 : 2 ≤ D.length) :
    (minpair D).1 < (minpair D).2 ∧ (minpair D).2 < D.length := by
  obtain ⟨hmem, _, hne, _⟩ := minpairRaw_spec D h2
  obtain ⟨hb1, hb2⟩ := mem_scanList.mp hmem
  by_cases hc : (minpairRaw D).2 < (minpairRaw D).1
  · rw [minpair_eq_swap D hc]
    exact ⟨hc, hb1⟩
  · rw [minpair_eq_raw D hc]
    exact ⟨by omega, hb2⟩

/-! ## Claim C1: branch lengths before and after the negative-branch correction -/

/-- Claim C1 (amended): for every matrix state and selected pair, the
uncorrected `pairdists` lengths satisfy `d1 + d2 = D[i,j]`; the corrected
lengths are both nonnegative; the sum is unchanged when both uncorrected
lengths are already nonnegative; but when either is negative the
correction transfers the deficit by subtraction (`d2 -= d1`), which
strictly increases the total instead of preserving it. -/
theorem claim_C1 (D : Mat) (i j : ℕ) :
    (pairdistsRaw D i j).1 + (pairdistsRaw D i j).2 = mget D i j ∧
    0 ≤ (pairdists D i j).1.1 ∧ 0 ≤ (pairdists D i j).1.2 ∧
    (0 ≤ (pairdistsRaw D i j).1 → 0 ≤ (pairdistsRaw D i j).2 →
      (pairdists D i j).1.1 + (pairdists D i j).1.2 = mget D i j) ∧
    ((pairdistsRaw D i j).1 < 0 ∨ (pairdistsRaw D i j).2 < 0 →
      mget D i j < (pairdists D i j).1.1 + (pairdists D i j).1.2) := by
  have hsum : (pairdistsRaw D i j).1 + (pairdistsRaw D i j).2 = mget D i j := by
    simp only [pairdistsRaw]
    ring
  set a := (pairdistsRaw D i j).1 with ha
  set b := (pairdistsRaw D i j).2 with hb
  have hpd : (pairdists D i j).1 = correctPair (a, b) := rfl
  rw [hpd]
  have hcp : correctPair (a, b) =
      if a < 0 then (if b - a < 0 then (0 - (b - a), 0) else (0, b - a))
      else (if b < 0 then (a - b, 0) else (a, b)) := by
    simp only [correctPair]
    by_cases h1 : a < 0 <;> simp [h1]
  rw [hcp]
  by_cases h1 : a < 0
  · rw [if_pos h1]
    by_cases h2 : b - a < 0
    · rw [if_pos h2]
      exact ⟨hsum, by simp only []; linarith, by simp only []; exact le_refl 0,
        fun hx _ => absurd h1 (not_lt.mpr hx),
        fun _ => by simp only []; linarith⟩
    · rw [if_neg h2]
      exact ⟨hsum, by simp only []; exact le_refl 0, by simp only []; linarith,
        fun hx _ => absurd h1 (not_lt.mpr hx),
        fun _ => by simp only []; linarith⟩
  · rw [if_neg h1]
    by_cases h2 : b < 0
    · rw [if_pos h2]
      refine ⟨hsum, by simp only []; linarith, by simp only []; exact le_refl 0,
        fun _ hy => absurd h2 (not_lt.mpr hy), ?_⟩
      rintro (hx | hx)
      · exact absurd hx h1
      · simp only []
        linarith
    · rw [if_neg h2]
      refine ⟨hsum, by simp only []; linarith, by simp only []; linarith,
        fun _ _ => hsum, ?_⟩
      rintro (hx | hx)
      · exact absurd hx h1
      · exact absurd hx h2

/-- Claim C1 counterexample: the valid symmetric zero-diagonal matrix
`[[0,0,0],[0,0,1],[0,1,0]]` is a reachable loop state (it is an initial
state); `minpair` selects `(0,1)`, and after the correction
`d1 + d2 = 1` while `D[0,1] = 0`, so the corrected sum differs from
`D[i,j]`. -/
theorem claim_C1_cex :
    minpair [[(0 : ℚ), 0, 0], [0, 0, 1], [0, 1, 0]] = (0, 1) ∧
    (pairdists [[(0 : ℚ), 0, 0], [0, 0, 1], [0, 1, 0]] 0 1).1.1 +
        (pairdists [[(0 : ℚ), 0, 0], [0, 0, 1], [0, 1, 0]] 0 1).1.2 ≠
      mget [[(0 : ℚ), 0, 0], [0, 0, 1], [0, 1, 0]] 0 1 := by
  constructor
  · with_unfolding_all decide
  · with_unfolding_all decide

/-- Claim C1 witness: a concrete selected pair with nonnegative
uncorrected lengths, where the corrected sum equals `D[i,j]`. -/
theorem claim_C1_witness :
    (pairdists [[(0 : ℚ), 2, 1], [2, 0, 1], [1, 1, 0]] 0 1).1.1 +
        (pairdists [[(0 : ℚ), 2, 1], [2, 0, 1], [1, 1, 0]] 0 1).1.2 =
      mget [[(0 : ℚ), 2, 1], [2, 0, 1], [1, 1, 0]] 0 1 :=
  (claim_C1 [[(0 : ℚ), 2, 1], [2, 0, 1], [1, 1, 0]] 0 1).2.2.2.1
    (by with_unfolding_all decide) (by with_unfolding_all decide)

/-! ## The self-refinement loop of merge0 -/

theorem selfLoop_succ {G : Type} (api : GraphAPI G) (g : G) (fuel : ℕ) :
    selfLoop api g (fuel + 1) =
      if (api.unionSelf g).2 then selfLoop api (api.unionSelf g).1 fuel
      else some (api.unionSelf g).1 := rfl

theorem selfIter_shift {G : Type} (api : GraphAPI G) (g : G) :
    ∀ k, selfIter api g (k + 1) = selfIter api (api.unionSelf g).1 k := by
  intro k
  induction k with
  | zero => rfl
  | succ k ih =>
    show (api.unionSelf (selfIter api g (k + 1))).1 = _
    rw [ih]
    rfl

theorem continAt_shift {G : Type} (api : GraphAPI G) (g : G) (k : ℕ) :
    continAt api g (k + 1) = continAt api (api.unionSelf g).1 k := by
  unfold continAt
  rw [selfIter_shift]

theorem continAt_zero {G : Type} (api : GraphAPI G) (g : G) :
    continAt api g 0 = (api.unionSelf g).2 := rfl

theorem selfLoop_none {G : Type} (api : GraphAPI G) :
    ∀ fuel (g : G), (∀ k, k < fuel → continAt api g k = true) →
      selfLoop api g fuel = none := by
  intro fuel
  induction fuel with
  | zero => intro g _; rfl
  | succ fuel ih =>
    intro g h
    rw [selfLoop_succ]
    have h0 : (api.unionSelf g).2 = true := h 0 (Nat.succ_pos fuel)
    rw [h0, if_pos rfl]
    refine ih _ ?_
    intro k hk
    rw [← continAt_shift]
    exact h (k + 1) (by omega)

theorem selfLoop_some {G : Type} (api : GraphAPI G) :
    ∀ fuel k (g : G), k < fuel → continAt api g k = false →
      (∀ m, m < k → continAt api g m = true) →
      selfLoop api g fuel = some (selfIter api g (k + 1)) := by
  intro fuel
  induction fuel with
  | zero => intro k g hk; omega
  | succ fuel ih =>
    intro k g hk hstop hbefore
    rw [selfLoop_succ]
    cases k with
    | zero =>
      rw [continAt_zero] at hstop
      rw [hstop]
      rfl
    | succ k =>
      have h0 : (api.unionSelf g).2 = true := by
        rw [← continAt_zero api g]
        exact hbefore 0 (Nat.succ_pos k)
      rw [h0, if_pos rfl]
      rw [selfIter_shift]
      refine ih k _ (by omega) ?_ ?_
      · rw [← continAt_shift]
        exact hstop
      · intro m hm
        rw [← continAt_shift]
        exact hbefore (m + 1) (by omega)

theorem merge0_gate_reject {G : Type} (api : GraphAPI G) (g1 g2 : G)
    (h : api.ratioOf (mergeCandidate api g1 g2) < mergeCutoff api g1 g2) :
    merge0 api g1 g2 = none := by
  unfold merge0
  rw [if_pos h]

theorem merge0_gate_pass {G : Type} (api : GraphAPI G) (g1 g2 : G)
    (h : ¬ api.ratioOf (mergeCandidate api g1 g2) < mergeCutoff api g1 g2) :
    merge0 api g1 g2 = selfLoop api (mergeCandidate api g1 g2) MAXSELFMAPS := by
  unfold merge0
  rw [if_neg h]

/-! ## Claim C3: the merge quality gate -/

/-- Claim C3: a candidate whose compression ratio is strictly below
`max(0, min(ratio(A), ratio(B)) - 0.05)` is rejected and `merge0` returns
no representation (and raises nothing: it is a total function into
`Option`); a candidate with nonnegative ratio at least
`min(ratio(A), ratio(B))` always passes the gate. -/
theorem claim_C3 {G : Type} (api : GraphAPI G) (g1 g2 : G) :
    (api.ratioOf (mergeCandidate api g1 g2) < mergeCutoff api g1 g2 →
      merge0 api g1 g2 = none) ∧
    (0 ≤ api.ratioOf (mergeCandidate api g1 g2) →
      min (api.ratioOf g1) (api.ratioOf g2) ≤ api.ratioOf (mergeCandidate api g1 g2) →
      ¬ api.ratioOf (mergeCandidate api g1 g2) < mergeCutoff api g1 g2) := by
  constructor
  · exact merge0_gate_reject api g1 g2
  · intro h0 hmin
    refine not_lt.mpr ?_
    unfold mergeCutoff
    refine max_le h0 ?_
    linarith

/-- Claim C3 witness: a concrete interface where a below-threshold
candidate is rejected, and one where an at-least-minimum candidate passes
the gate. -/
theorem claim_C3_witness :
    merge0 apiLow 0 0 = none ∧
    ¬ apiHigh.ratioOf (mergeCandidate apiHigh 0 0) < mergeCutoff apiHigh 0 0 :=
  ⟨(claim_C3 apiLow 0 0).1 (by with_unfolding_all decide),
   (claim_C3 apiHigh 0 0).2 (by with_unfolding_all decide)
     (by with_unfolding_all decide)⟩

/-! ## Claim C2: the self-refinement loop after gate acceptance -/

/-- Claim C2 (amended): once the gate accepts the candidate, `merge0`
re-runs the self consolidation pass at most `MAXSELFMAPS = 25` times and
stops at the first pass reporting no further work, returning the output
of that pass; but if every one of the 25 passes reports more work left,
the Python loop falls through and `merge0` returns no representation. -/
theorem claim_C2 {G : Type} (api : GraphAPI G) (g1 g2 : G)
    (hgate : ¬ api.ratioOf (mergeCandidate api g1 g2) < mergeCutoff api g1 g2) :
    ((∀ k, k < MAXSELFMAPS → continAt api (mergeCandidate api g1 g2) k = true) →
      merge0 api g1 g2 = none) ∧
    (∀ k, k < MAXSELFMAPS → continAt api (mergeCandidate api g1 g2) k = false →
      (∀ m, m < k → continAt api (mergeCandidate api g1 g2) m = true) →
      merge0 api g1 g2 = some (selfIter api (mergeCandidate api g1 g2) (k + 1))) := by
  constructor
  · intro hall
    rw [merge0_gate_pass api g1 g2 hgate]
    exact selfLoop_none api MAXSELFMAPS _ hall
  · intro k hk hstop hbefore
    rw [merge0_gate_pass api g1 g2 hgate]
    exact selfLoop_some api MAXSELFMAPS k _ hk hstop hbefore

/-- Claim C2 counterexample: an interface whose candidate passes the
gate but whose 25 self passes all report more work; `merge0` then
returns no representation, contradicting the unconditional return of a
representation asserted by the claim. -/
theorem claim_C2_cex :
    ¬ apiMore.ratioOf (mergeCandidate apiMore 0 0) < mergeCutoff apiMore 0 0 ∧
    merge0 apiMore 0 0 = none := by
  constructor
  · with_unfolding_all decide
  · with_unfolding_all decide

/-- Claim C2 witness: an accepted candidate whose first pass reports no
further work is returned after that pass. -/
theorem claim_C2_witness :
    merge0 apiStop 0 0 = some (selfIter apiStop (mergeCandidate apiStop 0 0) (0 + 1)) :=
  (claim_C2 apiStop 0 0 (by with_unfolding_all decide)).2 0
    (by with_unfolding_all decide) (by with_unfolding_all decide)
    (fun m hm => absurd hm (Nat.not_lt_zero m))

/-! ## List surgery helpers -/

theorem getD_mem {α : Type} (l : List α) (i : ℕ) (d : α) (h : i < l.length) :
    l.getD i d ∈ l := by
  rw [List.getD_eq_getElem l d h]
  exact List.getElem_mem h

theorem exists_split {α : Type} (l : List α) (k : ℕ) (h : k < l.length) :
    ∃ l1 x l2, l = l1 ++ x :: l2 ∧ l1.length = k := by
  induction l generalizing k with
  | nil => simp at h
  | cons y l ih =>
    cases k with
    | zero => exact ⟨[], y, l, rfl, rfl⟩
    | succ k =>
      obtain ⟨l1, x, l2, heq, hlen⟩ := ih k (by simpa using h)
      exact ⟨y :: l1, x, l2, by rw [heq]; rfl, by simp [hlen]⟩

theorem getD_append_len {α : Type} (l1 : List α) (x : α) (r : List α) (d : α) :
    (l1 ++ x :: r).getD l1.length d = x := by
  induction l1 with
  | nil => rfl
  | cons y l1 ih => simpa using ih

theorem set_append_len {α : Type} (l1 : List α) (x : α) (r : List α) (v : α) :
    (l1 ++ x :: r).set l1.length v = l1 ++ v :: r := by
  induction l1 with
  | nil => rfl
  | cons y l1 ih => simp [List.set, ih]

theorem erase_append_len {α : Type} (l1 : List α) (x : α) (r : List α) :
    (l1 ++ x :: r).eraseIdx l1.length = l1 ++ r := by
  induction l1 with
  | nil => rfl
  | cons y l1 ih => simp [List.eraseIdx, ih]

theorem exists_split2 {α : Type} (l : List α) (i j : ℕ) (hij : i < j)
    (hj : j < l.length) :
    ∃ l1 x l2 y l3, l = l1 ++ x :: (l2 ++ y :: l3) ∧ l1.length = i ∧
      (l1 ++ x :: l2).length = j := by
  obtain ⟨l1, x, r, heq, h1⟩ := exists_split l i (lt_trans hij hj)
  have hlen : l.length = l1.length + 1 + r.length := by
    rw [heq]
    simp
    omega
  have hr : j - i - 1 < r.length := by omega
  obtain ⟨l2, y, l3, heq2, h2⟩ := exists_split r (j - i - 1) hr
  refine ⟨l1, x, l2, y, l3, by rw [heq, heq2], h1, ?_⟩
  simp only [List.length_append, List.length_cons]
  omega

/-! ## Dimensions through one join step -/

theorem setRowI_square (D : Mat) (n i : ℕ) (dn : List ℚ)
    (hsq : Square D n) (hdn : dn.length = n) : Square (setRowI D i dn) n := by
  obtain ⟨hlen, hrows⟩ := hsq
  refine ⟨by rw [setRowI, List.length_set, hlen], ?_⟩
  intro r hr
  rcases List.mem_or_eq_of_mem_set hr with h | h
  · exact hrows r h
  · rw [h]; exact hdn

theorem setColI_square (D : Mat) (n i : ℕ) (dn : List ℚ)
    (hsq : Square D n) : Square (setColI D i dn) n := by
  obtain ⟨hlen, hrows⟩ := hsq
  refine ⟨by rw [setColI, List.length_map, List.length_range, hlen], ?_⟩
  intro r hr
  rcases List.mem_map.mp hr with ⟨k, hk, rfl⟩
  rw [List.length_set]
  exact hrows _ (getD_mem D k [] (List.mem_range.mp hk))

theorem zeroDiagI_square (D : Mat) (n i : ℕ) (hi : i < n)
    (hsq : Square D n) : Square (zeroDiagI D i) n := by
  obtain ⟨hlen, hrows⟩ := hsq
  refine ⟨by rw [zeroDiagI, List.length_set, hlen], ?_⟩
  intro r hr
  rcases List.mem_or_eq_of_mem_set hr with h | h
  · exact hrows r h
  · rw [h, List.length_set]
    exact hrows _ (getD_mem D i [] (by rw [hlen]; exact hi))

theorem dropJ_square (D : Mat) (n j : ℕ) (hj : j < n)
    (hsq : Square D n) : Square (dropJ D j) (n - 1) := by
  obtain ⟨hlen, hrows⟩ := hsq
  constructor
  · rw [dropJ, List.length_map, List.length_eraseIdx_of_lt (by rw [hlen]; exact hj), hlen]
  · intro r hr
    rcases List.mem_map.mp hr with ⟨r0, hr0, rfl⟩
    have hr0mem : r0 ∈ D := List.mem_of_mem_eraseIdx hr0
    rw [List.length_eraseIdx_of_lt (by rw [hrows r0 hr0mem]; exact hj), hrows r0 hr0mem]

theorem joinMat_square (D : Mat) (n i j : ℕ) (dn : List ℚ)
    (hsq : Square D n) (hi : i < n) (hj : j < n) (hdn : dn.length = n) :
    Square (joinMat D i j dn) (n - 1) :=
  dropJ_square _ n j hj
    (zeroDiagI_square _ n i hi (setColI_square _ n i dn (setRowI_square D n i dn hsq hdn)))

theorem dnewVec_length (D : Mat) (n i j : ℕ) (hsq : Square D n) (hi : i < n) :
    (dnewVec D i j).length = n := by
  rw [dnewVec, List.length_map, List.length_range]
  exact hsq.2 _ (getD_mem D i [] (by rw [hsq.1]; exact hi))

/-! ## The root-children update -/

theorem joinChildren_decomp {cs : List NTree} {i j : ℕ} (idx : ℕ) (d1 d2 : ℚ)
    (hij : i < j) (hj : j < cs.length) :
    ∃ l1 x l2 y l3, cs = l1 ++ x :: (l2 ++ y :: l3) ∧ l1.length = i ∧
      joinChildren cs i j idx d1 d2 =
        l1 ++ (NTree.node (nodeName idx) none
          [new_parent x d1, new_parent y d2]) :: (l2 ++ l3) := by
  obtain ⟨l1, x, l2, y, l3, heq, h1, h2⟩ := exists_split2 cs i j hij hj
  have hgi : cs.getD i (NTree.node "" none []) = x := by
    rw [heq, ← h1, getD_append_len]
  have hgj : cs.getD j (NTree.node "" none []) = y := by
    rw [heq, ← h2]
    rw [show l1 ++ x :: (l2 ++ y :: l3) = (l1 ++ x :: l2) ++ y :: l3 by simp]
    exact getD_append_len _ y l3 _
  refine ⟨l1, x, l2, y, l3, heq, h1, ?_⟩
  simp only [joinChildren, hgi, hgj]
  set nd := NTree.node (nodeName idx) none [new_parent x d1, new_parent y d2] with hnd
  have hset : cs.set i nd = l1 ++ nd :: (l2 ++ y :: l3) := by
    rw [heq, ← h1, set_append_len]
  rw [hset]
  have hlen2 : (l1 ++ nd :: l2).length = j := by
    simp only [List.length_append, List.length_cons] at h2 ⊢
    omega
  rw [show l1 ++ nd :: (l2 ++ y :: l3) = (l1 ++ nd :: l2) ++ y :: l3 by simp]
  rw [← hlen2, erase_append_len]
  simp

theorem joinChildren_length (cs : List NTree) (i j idx : ℕ) (d1 d2 : ℚ)
    (hij : i < j) (hj : j < cs.length) :
    (joinChildren cs i j idx d1 d2).length = cs.length - 1 := by
  obtain ⟨l1, x, l2, y, l3, heq, _, h3⟩ := joinChildren_decomp idx d1 d2 hij hj
  rw [h3, heq]
  simp only [List.length_append, List.length_cons]
  omega

/-! ## Leaf names and branch-length facts through a join -/

theorem leafNamesL_append (a b : List NTree) :
    leafNamesL (a ++ b) = leafNamesL a ++ leafNamesL b := by
  induction a with
  | nil => rfl
  | cons t ts ih => simp [leafNamesL, ih]

theorem leafNames_new_parent (t : NTree) (d : ℚ) :
    leafNames (new_parent t d) = leafNames t := by
  cases t with
  | node nm dd cs => cases cs <;> simp [new_parent, NTree.name, NTree.children, leafNames]

theorem leafNames_withDist (t : NTree) (d : ℚ) :
    leafNames (t.withDist d) = leafNames t := by
  cases t with
  | node nm dd cs => cases cs <;> simp [NTree.withDist, leafNames]

theorem leafNames_node_cons (nm : String) (dd : Option ℚ) (c : NTree) (cs : List NTree) :
    leafNames (NTree.node nm dd (c :: cs)) = leafNamesL (c :: cs) := by
  simp [leafNames]

theorem distsOk_new_parent (t : NTree) (d : ℚ) (h : distsOkL t.children = true) :
    distsOk (new_parent t d) = true := by
  cases t with
  | node nm dd cs =>
    simp only [NTree.children] at h
    show distsOk (NTree.node nm (some (if d > 0 then d else 0)) cs) = true
    have hd : (0 : ℚ) ≤ if d > 0 then d else 0 := by
      split
      · linarith
      · exact le_refl 0
    simp [distsOk, h, hd]

theorem joinChildren_forest (cs : List NTree) (i j idx : ℕ) (d1 d2 : ℚ)
    (hij : i < j) (hj : j < cs.length) (hf : ForestInv cs) :
    ForestInv (joinChildren cs i j idx d1 d2) := by
  obtain ⟨l1, x, l2, y, l3, heq, _, h3⟩ := joinChildren_decomp idx d1 d2 hij hj
  have hx : x ∈ cs := by rw [heq]; simp
  have hy : y ∈ cs := by rw [heq]; simp
  intro c hc
  rw [h3] at hc
  rcases List.mem_append.mp hc with hc | hc
  · exact hf c (by rw [heq]; exact List.mem_append_left _ hc)
  rcases List.mem_cons.mp hc with rfl | hc
  · show distsOkL _ = true
    simp only [NTree.children, distsOkL]
    rw [distsOk_new_parent x d1 (hf x hx), distsOk_new_parent y d2 (hf y hy)]
    rfl
  · refine hf c ?_
    rw [heq]
    refine List.mem_append_right _ (List.mem_cons_of_mem _ ?_)
    rcases List.mem_append.mp hc with hc | hc
    · exact List.mem_append_left _ hc
    · exact List.mem_append_right _ (List.mem_cons_of_mem _ hc)

theorem joinChildren_leaves (cs : List NTree) (i j idx : ℕ) (d1 d2 : ℚ)
    (hij : i < j) (hj : j < cs.length) :
    (leafNamesL (joinChildren cs i j idx d1 d2)).Perm (leafNamesL cs) := by
  obtain ⟨l1, x, l2, y, l3, heq, _, h3⟩ := joinChildren_decomp idx d1 d2 hij hj
  rw [h3, heq]
  rw [leafNamesL_append, leafNamesL_append]
  simp only [leafNamesL, leafNames_node_cons, leafNamesL_append]
  rw [leafNames_new_parent, leafNames_new_parent]
  simp only [List.append_nil, List.append_assoc]
  refine List.Perm.append_left _ ?_
  refine List.Perm.append_left _ ?_
  rw [← List.append_assoc, ← List.append_assoc]
  exact List.Perm.append_right _ List.perm_append_comm

theorem dist_withDist (t : NTree) (d : ℚ) : (t.withDist d).dist = some d := by
  cases t
  rfl

theorem children_withDist (t : NTree) (d : ℚ) :
    (t.withDist d).children = t.children := by
  cases t
  rfl

/-! ## The joining loop invariant -/

theorem njLoop_zero (s : Mat × List NTree × ℕ) : njLoop 0 s = s := rfl

theorem njLoop_succ (fuel : ℕ) (s : Mat × List NTree × ℕ) :
    njLoop (fuel + 1) s =
      if s.1.length > 2 then njLoop fuel (joinStep s) else s := rfl

theorem joinStep_inv (n : ℕ) (s : Mat × List NTree × ℕ)
    (hsq : Square s.1 n) (hcs : s.2.1.length = n) (h3 : 3 ≤ n) :
    Square (joinStep s).1 (n - 1) ∧ (joinStep s).2.1.length = n - 1 ∧
    (ForestInv s.2.1 → ForestInv (joinStep s).2.1) ∧
    (leafNamesL (joinStep s).2.1).Perm (leafNamesL s.2.1) := by
  obtain ⟨hij, hj⟩ := minpair_bounds s.1 (by rw [hsq.1]; omega)
  rw [hsq.1] at hj
  have hi : (minpair s.1).1 < n := lt_trans hij hj
  have hjcs : (minpair s.1).2 < s.2.1.length := by rw [hcs]; exact hj
  refine ⟨?_, ?_, ?_, ?_⟩
  · exact joinMat_square s.1 n _ _ _ hsq hi hj
      (dnewVec_length s.1 n _ _ hsq hi)
  · show (joinChildren _ _ _ _ _ _).length = n - 1
    rw [joinChildren_length _ _ _ _ _ _ hij hjcs, hcs]
  · intro hf
    exact joinChildren_forest _ _ _ _ _ _ hij hjcs hf
  · exact joinChildren_leaves _ _ _ _ _ _ hij hjcs

theorem njLoop_inv :
    ∀ (fuel n : ℕ) (s : Mat × List NTree × ℕ),
      Square s.1 n → s.2.1.length = n → 2 ≤ n → n ≤ fuel + 2 →
      Square (njLoop fuel s).1 2 ∧ (njLoop fuel s).2.1.length = 2 ∧
      (ForestInv s.2.1 → ForestInv (njLoop fuel s).2.1) ∧
      (leafNamesL (njLoop fuel s).2.1).Perm (leafNamesL s.2.1) := by
  intro fuel
  induction fuel with
  | zero =>
    intro n s hsq hcs h2 hb
    have hn2 : n = 2 := by omega
    rw [njLoop_zero]
    subst hn2
    exact ⟨hsq, hcs, fun h => h, List.Perm.refl _⟩
  | succ fuel ih =>
    intro n s hsq hcs h2 hb
    by_cases hgt : s.1.length > 2
    · have h3 : 3 ≤ n := by rw [hsq.1] at hgt; omega
      have hstep := joinStep_inv n s hsq hcs h3
      rw [njLoop_succ, if_pos hgt]
      obtain ⟨hsq2, hcs2, hfor2, hperm2⟩ := hstep
      obtain ⟨a, b, c, d⟩ := ih (n - 1) (joinStep s) hsq2 hcs2 (by omega) (by omega)
      exact ⟨a, b, fun h => c (hfor2 h), d.trans hperm2⟩
    · have hn2 : n = 2 := by rw [hsq.1] at hgt; omega
      rw [njLoop_succ, if_neg hgt]
      subst hn2
      exact ⟨hsq, hcs, fun h => h, List.Perm.refl _⟩

theorem njInit_length (names : List String) : (njInit names).length = names.length := by
  simp [njInit]

theorem njInit_leaves (names : List String) : leafNamesL (njInit names) = names := by
  induction names with
  | nil => rfl
  | cons nm names ih => simp [njInit, leafNamesL, leafNames] at ih ⊢; exact ih

theorem njInit_forest (names : List String) : ForestInv (njInit names) := by
  intro c hc
  rcases List.mem_map.mp hc with ⟨nm, _, rfl⟩
  rfl

/-! ## Claim C5: matrix shrink and root-children count -/

/-- Claim C5: a join step shrinks the working matrix by exactly one row
and one column and shrinks the root-children list by one, so the
children count stays equal to the matrix dimension at every loop entry
(it starts equal: seeding creates one child per name, and the matrix is
`names.length` square). -/
theorem claim_C5 (D : Mat) (cs : List NTree) (idx n : ℕ)
    (hsq : Square D n) (h3 : 3 ≤ n) (hcs : cs.length = n) :
    Square (joinStep (D, cs, idx)).1 (n - 1) ∧
    (joinStep (D, cs, idx)).2.1.length = n - 1 ∧
    (∀ names : List String, (njInit names).length = names.length) := by
  have h := joinStep_inv n (D, cs, idx) hsq hcs h3
  exact ⟨h.1, h.2.1, njInit_length⟩

/-- Claim C5 witness at a concrete 3 by 3 state. -/
theorem claim_C5_witness :
    Square (joinStep ([[(0 : ℚ), 1, 2], [1, 0, 3], [2, 3, 0]],
      njInit [ "A", "B", "C"], 0)).1 2 ∧
    (joinStep ([[(0 : ℚ), 1, 2], [1, 0, 3], [2, 3, 0]],
      njInit [ "A", "B", "C"], 0)).2.1.length = 2 := by
  have h := claim_C5 [[(0 : ℚ), 1, 2], [1, 0, 3], [2, 3, 0]] (njInit [ "A", "B", "C"]) 0 3
    (by with_unfolding_all decide) (by omega) (by rfl)
  exact ⟨h.1, h.2.1⟩

/-! ## Claim C7: loop exit and the final root split -/

/-- Claim C7: for an `n` by `n` input with `n ≥ 2`, the joining loop
exits exactly when the working matrix is 2 by 2, and then the two
surviving root children each receive branch length `D[0,1]/2`, leaving
the synthetic root with exactly two children. -/
theorem claim_C7 (D : Mat) (names : List String) (n : ℕ)
    (hsq : Square D n) (hn : 2 ≤ n) (hlen : names.length = n) :
    Square (njFinal D names).1 2 ∧
    (nj D names).children.length = 2 ∧
    ∀ c ∈ (nj D names).children,
      c.dist = some (mget (njFinal D names).1 0 1 / 2) := by
  have hinit : (njInit names).length = n := by rw [njInit_length, hlen]
  have hfuel : n ≤ D.length + 2 := by
    have hD : D.length = n := hsq.1
    omega
  obtain ⟨hsq2, hcs2, _, _⟩ :=
    njLoop_inv D.length n (D, njInit names, 0) hsq hinit hn hfuel
  have hflen : (njFinal D names).2.1.length = 2 := hcs2
  obtain ⟨c0, c1, hc⟩ : ∃ c0 c1, (njFinal D names).2.1 = [c0, c1] := by
    cases h : (njFinal D names).2.1 with
    | nil => rw [h] at hflen; simp at hflen
    | cons c0 rest =>
      cases rest with
      | nil => rw [h] at hflen; simp at hflen
      | cons c1 rest2 =>
        cases rest2 with
        | nil => exact ⟨c0, c1, rfl⟩
        | cons c2 r3 => rw [h] at hflen; simp at hflen
  have hch : (nj D names).children =
      [c0.withDist (mget (njFinal D names).1 0 1 / 2),
       c1.withDist (mget (njFinal D names).1 0 1 / 2)] := by
    show setRootDists (njFinal D names).2.1 (mget (njFinal D names).1 0 1) = _
    rw [hc]
    rfl
  refine ⟨hsq2, by rw [hch]; rfl, ?_⟩
  intro c hcmem
  rw [hch] at hcmem
  rcases List.mem_cons.mp hcmem with rfl | hcmem
  · exact dist_withDist c0 _
  rcases List.mem_cons.mp hcmem with rfl | hcmem
  · exact dist_withDist c1 _
  · exact absurd hcmem (List.not_mem_nil c)

/-- Claim C7 witness at a concrete symmetric 3 by 3 matrix. -/
theorem claim_C7_witness :
    (nj [[(0 : ℚ), 1, 2], [1, 0, 3], [2, 3, 0]] [ "A", "B", "C"]).children.length = 2 :=
  (claim_C7 [[(0 : ℚ), 1, 2], [1, 0, 3], [2, 3, 0]] [ "A", "B", "C"] 3
    (by with_unfolding_all decide) (by omega) (by rfl)).2.1

/-! ## Claim C4: leaves and branch-length signs of the produced tree -/

/-- Claim C4 (amended): for every `n` by `n` matrix and `n` distinct
names with `n ≥ 2`, the tree returned by `nj` has exactly the input
names as its leaves (one leaf per name, as a permutation of the name
list); every branch length assigned at a join step is clamped
nonnegative, so inside each of the two root children all resolved branch
lengths are `≥ 0`; but the two root children themselves receive the
unclamped `D[0,1]/2` of the final 2 by 2 matrix, which can be negative. -/
theorem claim_C4 (D : Mat) (names : List String) (n : ℕ)
    (hsq : Square D n) (hn : 2 ≤ n) (hlen : names.length = n)
    (hnd : names.Nodup) :
    (leafNames (nj D names)).Perm names ∧
    (nj D names).children.length = 2 ∧
    ∀ c ∈ (nj D names).children,
      c.dist = some (mget (njFinal D names).1 0 1 / 2) ∧
      distsOkL c.children = true := by
  have hinit : (njInit names).length = n := by rw [njInit_length, hlen]
  have hfuel : n ≤ D.length + 2 := by
    have hD : D.length = n := hsq.1
    omega
  obtain ⟨hsq2, hcs2, hfor, hperm⟩ :=
    njLoop_inv D.length n (D, njInit names, 0) hsq hinit hn hfuel
  have hforest : ForestInv (njFinal D names).2.1 := hfor (njInit_forest names)
  have hflen : (njFinal D names).2.1.length = 2 := hcs2
  obtain ⟨c0, c1, hc⟩ : ∃ c0 c1, (njFinal D names).2.1 = [c0, c1] := by
    cases h : (njFinal D names).2.1 with
    | nil => rw [h] at hflen; simp at hflen
    | cons c0 rest =>
      cases rest with
      | nil => rw [h] at hflen; simp at hflen
      | cons c1 rest2 =>
        cases rest2 with
        | nil => exact ⟨c0, c1, rfl⟩
        | cons c2 r3 => rw [h] at hflen; simp at hflen
  have hch0 : setRootDists (njFinal D names).2.1 (mget (njFinal D names).1 0 1) =
      [c0.withDist (mget (njFinal D names).1 0 1 / 2),
       c1.withDist (mget (njFinal D names).1 0 1 / 2)] := by
    rw [hc]
    rfl
  have hch : (nj D names).children =
      [c0.withDist (mget (njFinal D names).1 0 1 / 2),
       c1.withDist (mget (njFinal D names).1 0 1 / 2)] := hch0
  refine ⟨?_, by rw [hch]; rfl, ?_⟩
  · have hnj : nj D names = NTree.node "ROOT" (some 0)
        [c0.withDist (mget (njFinal D names).1 0 1 / 2),
         c1.withDist (mget (njFinal D names).1 0 1 / 2)] := by
      show NTree.node "ROOT" (some 0)
          (setRootDists (njFinal D names).2.1 (mget (njFinal D names).1 0 1)) = _
      rw [hch0]
    rw [hnj, leafNames_node_cons]
    have heq2 : leafNamesL [c0.withDist (mget (njFinal D names).1 0 1 / 2),
        c1.withDist (mget (njFinal D names).1 0 1 / 2)] = leafNamesL [c0, c1] := by
      simp [leafNamesL, leafNames_withDist]
    rw [heq2, ← hc]
    rw [njInit_leaves names] at hperm
    exact hperm
  · intro c hcmem
    rw [hch] at hcmem
    have h0 : distsOkL c0.children = true := hforest c0 (by rw [hc]; simp)
    have h1 : distsOkL c1.children = true := hforest c1 (by rw [hc]; simp)
    rcases List.mem_cons.mp hcmem with rfl | hcmem
    · exact ⟨dist_withDist c0 _, by rw [children_withDist]; exact h0⟩
    rcases List.mem_cons.mp hcmem with rfl | hcmem
    · exact ⟨dist_withDist c1 _, by rw [children_withDist]; exact h1⟩
    · exact absurd hcmem (List.not_mem_nil c)

/-- Claim C4 counterexample: on the valid (symmetric, zero-diagonal,
nonnegative) matrix `[[0,1,0],[1,0,0],[0,0,0]]` the final split gives
both root children branch length `-1/4`, so not every branch length of
the produced tree is nonnegative. -/
theorem claim_C4_cex :
    distsOk (nj [[(0 : ℚ), 1, 0], [1, 0, 0], [0, 0, 0]] [ "A", "B", "C"]) = false := by
  with_unfolding_all decide

/-- Claim C4 witness: on a concrete symmetric matrix the leaves are
exactly the input names. -/
theorem claim_C4_witness :
    (leafNames (nj [[(0 : ℚ), 1, 2], [1, 0, 3], [2, 3, 0]] [ "A", "B", "C"])).Perm
      [ "A", "B", "C"] :=
  (claim_C4 [[(0 : ℚ), 1, 2], [1, 0, 3], [2, 3, 0]] [ "A", "B", "C"] 3
    (by with_unfolding_all decide) (by omega) (by rfl) (by decide)).1

/-! ## Row and column sums, symmetry of the Q matrix -/

theorem sum_eq_range_getD (l : List ℚ) :
    l.sum = ((List.range l.length).map (fun k => l.getD k 0)).sum := by
  induction l with
  | nil => rfl
  | cons x xs ih =>
    rw [List.sum_cons, List.length_cons, List.range_succ_eq_map]
    rw [List.map_cons, List.sum_cons]
    congr 1
    rw [List.map_map]
    exact ih

theorem colsum_eq_range (D : Mat) (j : ℕ) :
    colsum D j = ((List.range D.length).map (fun k => mget D k j)).sum := by
  unfold colsum mget
  induction D with
  | nil => rfl
  | cons r rs ih =>
    rw [List.map_cons, List.sum_cons, List.length_cons, List.range_succ_eq_map,
      List.map_cons, List.sum_cons]
    congr 1
    rw [List.map_map]
    exact ih

theorem rowsum_eq_range (D : Mat) (n i : ℕ) (hsq : Square D n) (hi : i < n) :
    rowsum D i = ((List.range n).map (fun k => mget D i k)).sum := by
  unfold rowsum
  have hlen : (D.getD i []).length = n :=
    hsq.2 _ (getD_mem D i [] (by rw [hsq.1]; exact hi))
  rw [sum_eq_range_getD, hlen]
  rfl

theorem rowsum_eq_colsum (D : Mat) (n : ℕ) (hsq : Square D n)
    (hsym : ∀ a, a < n → ∀ b, b < n → mget D a b = mget D b a)
    (a : ℕ) (ha : a < n) : rowsum D a = colsum D a := by
  rw [rowsum_eq_range D n a hsq ha, colsum_eq_range D a, hsq.1]
  refine congrArg List.sum (List.map_congr_left ?_)
  intro k hk
  exact hsym a ha k (List.mem_range.mp hk)

theorem Qmat_symm (D : Mat) (n : ℕ) (hsq : Square D n)
    (hsym : ∀ a, a < n → ∀ b, b < n → mget D a b = mget D b a)
    (a b : ℕ) (ha : a < n) (hb : b < n) : Qmat D a b = Qmat D b a := by
  by_cases hab : a = b
  · rw [hab]
  · rw [Qmat_offdiag D hab, Qmat_offdiag D (Ne.symm hab)]
    rw [hsym a ha b hb]
    rw [rowsum_eq_colsum D n hsq hsym a ha, rowsum_eq_colsum D n hsq hsym b hb]
    congr 1
    ring

theorem minpairRaw_lt_of_symm (D : Mat) (n : ℕ) (hsq : Square D n) (h2 : 2 ≤ n)
    (hsym : ∀ a, a < n → ∀ b, b < n → mget D a b = mget D b a) :
    (minpairRaw D).1 < (minpairRaw D).2 := by
  obtain ⟨hmem, _, hne, hfirst⟩ := minpairRaw_spec D (by rw [hsq.1]; exact h2)
  obtain ⟨h1, h2'⟩ := mem_scanList.mp hmem
  rw [hsq.1] at h1 h2'
  by_contra hcon
  push_neg at hcon
  have hlt : (minpairRaw D).2 < (minpairRaw D).1 := by omega
  have hqmem : ((minpairRaw D).2, (minpairRaw D).1) ∈ scanList D.length :=
    mem_scanList.mpr ⟨by rw [hsq.1]; exact h2', by rw [hsq.1]; exact h1⟩
  have hlex : lexLt ((minpairRaw D).2, (minpairRaw D).1) (minpairRaw D) := Or.inl hlt
  have := hfirst _ hqmem hlex
  rw [show (((minpairRaw D).2, (minpairRaw D).1) : ℕ × ℕ).1 = (minpairRaw D).2 from rfl,
    show (((minpairRaw D).2, (minpairRaw D).1) : ℕ × ℕ).2 = (minpairRaw D).1 from rfl] at this
  rw [Qmat_symm D n hsq hsym _ _ h2' h1] at this
  exact absurd this (lt_irrefl _)

/-! ## Claim C6: the Q criterion and the selected pair -/

/-- Claim C6: the Q matrix has `+inf` on the diagonal and
`(n-2)*D[i,j] - (rowSum(D,i) + colSum(D,j))` off it, and for a symmetric
state the joined pair `(i,j)` has `i < j`, attains the minimum of Q, and
is the first minimum in row-major scan order (every pair scanned earlier
has a strictly larger Q value). -/
theorem claim_C6 (D : Mat) (n : ℕ) (hsq : Square D n) (h2 : 2 ≤ n)
    (hsym : ∀ a, a < n → ∀ b, b < n → mget D a b = mget D b a) :
    (∀ a, Qmat D a a = ⊤) ∧
    (∀ a b, a ≠ b →
      Qmat D a b =
        ((((n : ℚ) - 2) * mget D a b - (rowsum D a + colsum D b) : ℚ) : WithTop ℚ)) ∧
    (minpair D).1 < (minpair D).2 ∧ (minpair D).2 < n ∧
    (∀ a b, a < n → b < n →
      Qmat D (minpair D).1 (minpair D).2 ≤ Qmat D a b) ∧
    (∀ a b, a < n → b < n → lexLt (a, b) (minpair D) →
      Qmat D (minpair D).1 (minpair D).2 < Qmat D a b) := by
  have hlen2 : 2 ≤ D.length := by rw [hsq.1]; exact h2
  have hnoswap : minpair D = minpairRaw D := by
    refine minpair_eq_raw D ?_
    exact not_lt.mpr (le_of_lt (minpairRaw_lt_of_symm D n hsq h2 hsym))
  obtain ⟨hmem, hmin, _, hfirst⟩ := minpairRaw_spec D hlen2
  obtain ⟨hb1, hb2⟩ := mem_scanList.mp hmem
  refine ⟨Qmat_diag D, ?_, ?_, ?_, ?_, ?_⟩
  · intro a b hab
    rw [Qmat_offdiag D hab, hsq.1]
    congr 1
    ring
  · rw [hnoswap]
    exact minpairRaw_lt_of_symm D n hsq h2 hsym
  · rw [hnoswap, ← hsq.1]
    exact hb2
  · intro a b ha hb
    rw [hnoswap]
    exact hmin (a, b) (mem_scanList.mpr ⟨by rw [hsq.1]; exact ha, by rw [hsq.1]; exact hb⟩)
  · intro a b ha hb hlex
    rw [hnoswap]
    refine hfirst (a, b)
      (mem_scanList.mpr ⟨by rw [hsq.1]; exact ha, by rw [hsq.1]; exact hb⟩) ?_
    rw [← hnoswap]
    exact hlex

/-- Claim C6 witness at a concrete symmetric 3 by 3 matrix: the selected
pair is ordered, in range, and Q-minimal against a sample pair. -/
theorem claim_C6_witness :
    (minpair [[(0 : ℚ), 1, 2], [1, 0, 3], [2, 3, 0]]).1 <
      (minpair [[(0 : ℚ), 1, 2], [1, 0, 3], [2, 3, 0]]).2 ∧
    Qmat [[(0 : ℚ), 1, 2], [1, 0, 3], [2, 3, 0]]
        (minpair [[(0 : ℚ), 1, 2], [1, 0, 3], [2, 3, 0]]).1
        (minpair [[(0 : ℚ), 1, 2], [1, 0, 3], [2, 3, 0]]).2 ≤
      Qmat [[(0 : ℚ), 1, 2], [1, 0, 3], [2, 3, 0]] 0 1 := by
  have h := claim_C6 [[(0 : ℚ), 1, 2], [1, 0, 3], [2, 3, 0]] 3
    (by with_unfolding_all decide) (by omega) (by with_unfolding_all decide)
  exact ⟨h.2.2.1, h.2.2.2.2.1 0 1 (by omega) (by omega)⟩

/-! ## Claim C10: the shared default children list across nj calls -/

/-- Claim C10: demonstration of the mutable-default-argument defect.
With the process-wide default list made explicit, a first run of `nj`
from the empty shared list equals plain `nj` and leaves a root with two
children, but a second run on the same input starts from the leftover
shared list and produces a root with four children — the two stale
nodes of the first tree plus the fresh leaves — so the second call is
not equal to the first and the children list does not start empty. -/
theorem claim_C10_bug :
    (njShared [[(0 : ℚ), 1], [1, 0]] [ "A", "B"] []).1 =
      nj [[(0 : ℚ), 1], [1, 0]] [ "A", "B"] ∧
    (njShared [[(0 : ℚ), 1], [1, 0]] [ "A", "B"] []).1.children.length = 2 ∧
    (njShared [[(0 : ℚ), 1], [1, 0]] [ "A", "B"]
      ((njShared [[(0 : ℚ), 1], [1, 0]] [ "A", "B"] []).2)).1.children.length = 4 := by
  refine ⟨?_, ?_, ?_⟩
  · with_unfolding_all rfl
  · with_unfolding_all decide
  · with_unfolding_all decide

/-! ## Claim C9: JSON round trip -/

mutual

theorem fromDict_toJson : ∀ t : PNode, Node.from_dict (PNode.to_json t) = t
  | .node n d cs f g => by
    show PNode.node n d (fromDictList (toJsonList cs)) f g = PNode.node n d cs f g
    rw [fromDictList_toJsonList cs]

theorem fromDictList_toJsonList : ∀ l : List PNode, fromDictList (toJsonList l) = l
  | [] => rfl
  | t :: ts => by
    show Node.from_dict (PNode.to_json t) :: fromDictList (toJsonList ts) = t :: ts
    rw [fromDict_toJson t, fromDictList_toJsonList ts]

end

mutual

theorem getLeafs_names : ∀ t : PNode,
    (PNode.getLeafs t).map PNode.name = PNode.leafNames t
  | .node n d cs f g => by
    show ((if cs.isEmpty then [PNode.node n d cs f g] else getLeafsList cs).map PNode.name)
      = if cs.isEmpty then [n] else leafNamesPL cs
    by_cases h : cs.isEmpty
    · rw [if_pos h, if_pos h]
      rfl
    · rw [if_neg h, if_neg h]
      exact getLeafsList_names cs

theorem getLeafsList_names : ∀ l : List PNode,
    (getLeafsList l).map PNode.name = leafNamesPL l
  | [] => rfl
  | t :: ts => by
    show ((PNode.getLeafs t ++ getLeafsList ts).map PNode.name) = _
    rw [List.map_append, getLeafs_names t, getLeafsList_names ts]
    rfl

end

theorem lookupLeaf_self (root : PNode) (x : PNode)
    (hnodup : (PNode.leafNames root).Nodup)
    (hx : x ∈ PNode.getLeafs root) : lookupLeaf root x.name = x := by
  have hmapnodup : ((PNode.getLeafs root).map PNode.name).Nodup := by
    rw [getLeafs_names root]
    exact hnodup
  have hxr : x ∈ (PNode.getLeafs root).reverse := List.mem_reverse.mpr hx
  have hsome : ((PNode.getLeafs root).reverse.find?
      (fun n => n.name == x.name)).isSome := by
    rw [List.find?_isSome]
    exact ⟨x, hxr, by simp⟩
  obtain ⟨y, hy⟩ := Option.isSome_iff_exists.mp hsome
  have hyname : y.name = x.name := by
    have := List.find?_some hy
    simpa using this
  have hymem : y ∈ PNode.getLeafs root :=
    List.mem_reverse.mp (List.mem_of_find?_eq_some hy)
  have hxy : y = x :=
    List.inj_on_of_nodup_map hmapnodup hymem hx hyname
  unfold lookupLeaf
  rw [hy, hxy]
  rfl

/-- Claim C9: serializing a tree with attached sequences via `write_json`
and reading it back with `from_json` reproduces the identical tree —
same names, branch lengths, children order, `fapath` and graph fields,
and the same leaf-to-sequence mapping — provided the leaf names are
distinct and every sequence key is a leaf of the tree (the documented
attachment contract). -/
theorem claim_C9 (T : PTree)
    (hnodup : (PNode.leafNames T.root).Nodup)
    (hkeys : ∀ p ∈ T.seqs, p.1 ∈ PNode.getLeafs T.root) :
    from_json (write_json T) = T := by
  obtain ⟨root, seqs⟩ := T
  simp only [PNode.leafNames] at hnodup
  unfold write_json from_json
  simp only []
  rw [fromDict_toJson root]
  congr 1
  rw [List.map_map]
  have hpt : ∀ p ∈ seqs, (lookupLeaf root p.1.name, p.2) = p := by
    intro p hp
    have hleaf := hkeys p hp
    rw [lookupLeaf_self root p.1 hnodup hleaf]
  calc seqs.map ((fun p => (lookupLeaf root p.1, p.2)) ∘ (fun p => (p.1.name, p.2)))
      = seqs.map id := List.map_congr_left (fun p hp => hpt p hp)
    _ = seqs := List.map_id seqs

/-- Claim C9 witness: a concrete two-leaf tree with attached sequences
round trips exactly. -/
theorem claim_C9_witness : from_json (write_json treeW) = treeW := by
  have hleafs : PNode.getLeafs treeW.root = [leafA, leafB] := by
    with_unfolding_all rfl
  refine claim_C9 treeW (by with_unfolding_all decide) ?_
  intro p hp
  rcases List.mem_cons.mp hp with rfl | hp
  · rw [hleafs]
    exact List.mem_cons_self _ _
  rcases List.mem_cons.mp hp with rfl | hp
  · rw [hleafs]
    exact List.mem_cons_of_mem _ (List.mem_cons_self _ _)
  · exact absurd hp (List.not_mem_nil p)

/-! ## The line loop of the loader -/

theorem parseRowsAux_nil (li : ℕ) (M : Mat) (names : List String) (dels : List ℕ) :
    parseRowsAux li M names dels [] = (M, names, dels) := rfl

theorem parseRowsAux_cons (li : ℕ) (M : Mat) (names : List String) (dels : List ℕ)
    (tok : String) (vals : List ℚ) (rest : List (String × List ℚ)) :
    parseRowsAux li M names dels ((tok, vals) :: rest) =
      if derivedName tok ∈ names then
        parseRowsAux (li + 1) M names (dels ++ [li]) rest
      else
        parseRowsAux (li + 1) (writeRow M li vals) (names ++ [derivedName tok]) dels rest := rfl

theorem parseRowsAux_names :
    ∀ (lines : List (String × List ℚ)) (li : ℕ) (M : Mat) (names : List String)
      (dels : List ℕ),
      (parseRowsAux li M names dels lines).2.1 =
        names ++ dedupFirstAux names (lines.map (fun l => derivedName l.1)) := by
  intro lines
  induction lines with
  | nil => intro li M names dels; simp [parseRowsAux_nil, dedupFirstAux]
  | cons p rest ih =>
    intro li M names dels
    obtain ⟨tok, vals⟩ := p
    rw [parseRowsAux_cons]
    by_cases h : derivedName tok ∈ names
    · rw [if_pos h, ih]
      simp only [List.map_cons, dedupFirstAux, if_pos h]
    · rw [if_neg h, ih]
      simp only [List.map_cons, dedupFirstAux, if_neg h, List.append_assoc,
        List.singleton_append]

theorem parseRowsAux_count :
    ∀ (lines : List (String × List ℚ)) (li : ℕ) (M : Mat) (names : List String)
      (dels : List ℕ),
      (parseRowsAux li M names dels lines).2.1.length +
          (parseRowsAux li M names dels lines).2.2.length =
        names.length + dels.length + lines.length := by
  intro lines
  induction lines with
  | nil => intro li M names dels; simp [parseRowsAux_nil]
  | cons p rest ih =>
    intro li M names dels
    obtain ⟨tok, vals⟩ := p
    rw [parseRowsAux_cons]
    by_cases h : derivedName tok ∈ names
    · rw [if_pos h, ih]
      simp only [List.length_append, List.length_cons, List.length_nil]
      omega
    · rw [if_neg h, ih]
      simp only [List.length_append, List.length_cons, List.length_nil]
      omega

theorem parseRowsAux_dels :
    ∀ (lines : List (String × List ℚ)) (li : ℕ) (M : Mat) (names : List String)
      (dels : List ℕ),
      List.Pairwise (· < ·) dels → (∀ d ∈ dels, d < li) →
      List.Pairwise (· < ·) (parseRowsAux li M names dels lines).2.2 ∧
        ∀ d ∈ (parseRowsAux li M names dels lines).2.2, d < li + lines.length := by
  intro lines
  induction lines with
  | nil =>
    intro li M names dels hp hb
    rw [parseRowsAux_nil]
    exact ⟨hp, fun d hd => by have := hb d hd; omega⟩
  | cons p rest ih =>
    intro li M names dels hp hb
    obtain ⟨tok, vals⟩ := p
    rw [parseRowsAux_cons]
    by_cases h : derivedName tok ∈ names
    · rw [if_pos h]
      have hp2 : List.Pairwise (· < ·) (dels ++ [li]) := by
        rw [List.pairwise_append]
        refine ⟨hp, List.pairwise_singleton _ _, ?_⟩
        intro a ha b hbmem
        rw [List.mem_singleton] at hbmem
        subst hbmem
        exact hb a ha
      have hb2 : ∀ d ∈ dels ++ [li], d < li + 1 := by
        intro d hd
        rcases List.mem_append.mp hd with hd | hd
        · have := hb d hd; omega
        · rw [List.mem_singleton] at hd; omega
      obtain ⟨hs, hbd⟩ := ih (li + 1) M names (dels ++ [li]) hp2 hb2
      refine ⟨hs, fun d hd => ?_⟩
      have := hbd d hd
      simp only [List.length_cons]
      omega
    · rw [if_neg h]
      have hb2 : ∀ d ∈ dels, d < li + 1 := fun d hd => by have := hb d hd; omega
      obtain ⟨hs, hbd⟩ := ih (li + 1) _ _ dels hp hb2
      refine ⟨hs, fun d hd => ?_⟩
      have := hbd d hd
      simp only [List.length_cons]
      omega

theorem parseRowsAux_mat (n : ℕ) :
    ∀ (lines : List (String × List ℚ)) (li : ℕ) (M : Mat) (names : List String)
      (dels : List ℕ),
      M.length = n → (∀ r ∈ M, r.length = n) →
      (∀ k, k < lines.length → ((lines.getD k ( "", [])).2).length = li + k + 1) →
      li + lines.length ≤ n →
      (parseRowsAux li M names dels lines).1.length = n ∧
        ∀ r ∈ (parseRowsAux li M names dels lines).1, r.length = n := by
  intro lines
  induction lines with
  | nil =>
    intro li M names dels hlen hrows _ _
    rw [parseRowsAux_nil]
    exact ⟨hlen, hrows⟩
  | cons p rest ih =>
    intro li M names dels hlen hrows hvals hbound
    obtain ⟨tok, vals⟩ := p
    have hrest : ∀ k, k < rest.length → ((rest.getD k ( "", [])).2).length = (li + 1) + k + 1 := by
      intro k hk
      have := hvals (k + 1) (by simp only [List.length_cons]; omega)
      simp only [List.getD_cons_succ] at this
      omega
    rw [parseRowsAux_cons]
    by_cases h : derivedName tok ∈ names
    · rw [if_pos h]
      refine ih (li + 1) M names (dels ++ [li]) hlen hrows hrest ?_
      simp only [List.length_cons] at hbound
      omega
    · rw [if_neg h]
      have hvals0 : vals.length = li + 1 := by
        have := hvals 0 (by simp only [List.length_cons]; omega)
        simpa using this
      have hli : li < n := by simp only [List.length_cons] at hbound; omega
      have hwlen : (writeRow M li vals).length = n := by
        rw [writeRow, List.length_set, hlen]
      have hwrows : ∀ r ∈ writeRow M li vals, r.length = n := by
        intro r hr
        rcases List.mem_or_eq_of_mem_set hr with hmem | heq
        · exact hrows r hmem
        · rw [heq]
          have hrowlen : (M.getD li []).length = n :=
            hrows _ (getD_mem M li [] (by rw [hlen]; exact hli))
          simp only [List.length_append, List.length_take, List.length_drop,
            hvals0, hrowlen]
          omega
      refine ih (li + 1) _ _ dels hwlen hwrows hrest ?_
      simp only [List.length_cons] at hbound
      omega

/-! ## Deleting the duplicate rows and columns -/

theorem deleteIdxs_nil {α : Type} (l : List α) : deleteIdxs l [] = l := rfl

theorem deleteIdxs_cons {α : Type} (l : List α) (d : ℕ) (ds : List ℕ) :
    deleteIdxs l (d :: ds) = (deleteIdxs l ds).eraseIdx d := rfl

theorem deleteIdxs_sublist {α : Type} :
    ∀ (dels : List ℕ) (l : List α), (deleteIdxs l dels).Sublist l
  | [], l => List.Sublist.refl l
  | d :: ds, l => by
    rw [deleteIdxs_cons]
    exact (List.eraseIdx_sublist _ d).trans (deleteIdxs_sublist ds l)

theorem ascending_bound :
    ∀ (ds : List ℕ) (d L : ℕ), List.Pairwise (· < ·) (d :: ds) →
      (∀ x ∈ d :: ds, x < L) → d + ds.length < L := by
  intro ds
  induction ds with
  | nil =>
    intro d L _ hb
    simpa using hb d (List.mem_cons_self _ _)
  | cons e ds2 ih =>
    intro d L hp hb
    have hde : d < e := (List.pairwise_cons.mp hp).1 e (List.mem_cons_self _ _)
    have h2 : e + ds2.length < L :=
      ih e L (List.pairwise_cons.mp hp).2 (fun x hx => hb x (List.mem_cons_of_mem _ hx))
    simp only [List.length_cons]
    omega

theorem deleteIdxs_length {α : Type} :
    ∀ (dels : List ℕ) (l : List α), List.Pairwise (· < ·) dels →
      (∀ d ∈ dels, d < l.length) →
      (deleteIdxs l dels).length = l.length - dels.length := by
  intro dels
  induction dels with
  | nil => intro l _ _; rfl
  | cons d ds ih =>
    intro l hp hb
    rw [deleteIdxs_cons]
    have hlen2 : (deleteIdxs l ds).length = l.length - ds.length :=
      ih l (List.pairwise_cons.mp hp).2 (fun x hx => hb x (List.mem_cons_of_mem _ hx))
    have hdlt : d + ds.length < l.length := ascending_bound ds d l.length hp hb
    rw [List.length_eraseIdx_of_lt (by omega : d < (deleteIdxs l ds).length), hlen2]
    simp only [List.length_cons]
    omega

/-! ## Entries of the converted and symmetrized matrix -/

theorem getD_range_map {β : Type} (f : ℕ → β) (n i : ℕ) (d : β) (hi : i < n) :
    ((List.range n).map f).getD i d = f i := by
  rw [List.getD_eq_getElem _ d (by simpa using hi)]
  simp

theorem symmetrize_length (M : Mat) : (symmetrize M).length = M.length := by
  simp [symmetrize]

theorem symmetrize_rows (M : Mat) : ∀ r ∈ symmetrize M, r.length = M.length := by
  intro r hr
  rcases List.mem_map.mp hr with ⟨i, _, rfl⟩
  simp

theorem mget_symmetrize_in (M : Mat) (i j : ℕ) (hi : i < M.length) (hj : j < M.length) :
    mget (symmetrize M) i j = if i = j then 0 else (mget M i j + mget M j i) / 2 := by
  unfold symmetrize
  show (((List.range M.length).map _).getD i []).getD j 0 = _
  rw [getD_range_map _ _ i [] hi, getD_range_map _ _ j 0 hj]

theorem mget_out_left (M : Mat) (i j : ℕ) (hi : M.length ≤ i) : mget M i j = 0 := by
  unfold mget
  rw [List.getD_eq_default _ [] hi]
  rfl

theorem mget_out_right (M : Mat) (n i j : ℕ) (hlen : M.length = n)
    (hrows : ∀ r ∈ M, r.length = n) (hj : n ≤ j) : mget M i j = 0 := by
  unfold mget
  by_cases hi : i < M.length
  · exact List.getD_eq_default _ 0 (by rw [hrows _ (getD_mem M i [] hi)]; exact hj)
  · rw [List.getD_eq_default _ [] (by omega)]
    rfl

theorem mget_symmetrize_symm (M : Mat) (i j : ℕ) :
    mget (symmetrize M) i j = mget (symmetrize M) j i := by
  by_cases hi : i < M.length
  · by_cases hj : j < M.length
    · rw [mget_symmetrize_in M i j hi hj, mget_symmetrize_in M j i hj hi]
      by_cases hij : i = j
      · rw [hij]
      · rw [if_neg hij, if_neg (Ne.symm hij)]
        ring
    · rw [mget_out_right (symmetrize M) M.length i j (symmetrize_length M)
        (symmetrize_rows M) (by omega)]
      rw [mget_out_left (symmetrize M) j i (by rw [symmetrize_length]; omega)]
  · rw [mget_out_left (symmetrize M) i j (by rw [symmetrize_length]; omega)]
    by_cases hj : j < M.length
    · rw [mget_out_right (symmetrize M) M.length j i (symmetrize_length M)
        (symmetrize_rows M) (by omega)]
    · rw [mget_out_left (symmetrize M) j i (by rw [symmetrize_length]; omega)]

theorem mget_symmetrize_diag (M : Mat) (i : ℕ) : mget (symmetrize M) i i = 0 := by
  by_cases hi : i < M.length
  · rw [mget_symmetrize_in M i i hi hi, if_pos rfl]
  · rw [mget_out_left (symmetrize M) i i (by rw [symmetrize_length]; omega)]

theorem oneMinus_length (M : Mat) : (oneMinus M).length = M.length := by
  simp [oneMinus]

theorem getD_map_in {α β : Type} (g : α → β) (l : List α) (i : ℕ) (d : β) (d0 : α)
    (hi : i < l.length) : (l.map g).getD i d = g (l.getD i d0) := by
  rw [List.getD_eq_getElem (l.map g) d (by simpa using hi), List.getElem_map,
    List.getD_eq_getElem l d0 hi]

theorem mget_oneMinus (M : Mat) (n i j : ℕ) (hlen : M.length = n)
    (hrows : ∀ r ∈ M, r.length = n) (hi : i < n) (hj : j < n) :
    mget (oneMinus M) i j = 1 - mget M i j := by
  have hin : i < M.length := by omega
  have hrlen : (M.getD i []).length = n := hrows _ (getD_mem M i [] hin)
  unfold oneMinus mget
  rw [getD_map_in _ M i [] [] hin]
  rw [getD_map_in _ (M.getD i []) j 0 0 (by rw [hrlen]; exact hj)]

/-! ## Claim C8: the distance-matrix loader -/

/-- Claim C8: for a well-formed input (row count matching the line count,
row `li` carrying `li+1` values), `parse` returns the ordered list of
kept identifiers — the first-occurrence deduplication of the derived
names — and a square matrix sized to that list; the matrix is symmetric
with zero diagonal, and each off-diagonal entry is the average of
`1 - value` with its transposed counterpart over the kept raw matrix. -/
theorem claim_C8 (nrows : ℕ) (lines : List (String × List ℚ))
    (H1 : lines.length = nrows)
    (H2 : ∀ k, k < lines.length → ((lines.getD k ( "", [])).2).length = k + 1) :
    (parse nrows lines).2 = dedupFirst (lines.map (fun l => derivedName l.1)) ∧
    (parse nrows lines).1.length = (parse nrows lines).2.length ∧
    (∀ r ∈ (parse nrows lines).1, r.length = (parse nrows lines).2.length) ∧
    (∀ i j, mget (parse nrows lines).1 i j = mget (parse nrows lines).1 j i) ∧
    (∀ i, mget (parse nrows lines).1 i i = 0) ∧
    (∀ i j, i < (parse nrows lines).2.length → j < (parse nrows lines).2.length →
      i ≠ j →
      mget (parse nrows lines).1 i j =
        ((1 - mget (parseKept nrows lines) i j) +
          (1 - mget (parseKept nrows lines) j i)) / 2) := by
  have hz1 : (zerosMat nrows).length = nrows := by simp [zerosMat]
  have hz2 : ∀ r ∈ zerosMat nrows, r.length = nrows := by
    intro r hr
    have := List.eq_of_mem_replicate hr
    rw [this]
    simp
  have hvals : ∀ k, k < lines.length →
      ((lines.getD k ( "", [])).2).length = 0 + k + 1 := by
    intro k hk
    have := H2 k hk
    omega
  obtain ⟨hMlen, hMrows⟩ :=
    parseRowsAux_mat nrows lines 0 (zerosMat nrows) [] [] hz1 hz2 hvals (by omega)
  obtain ⟨hsort, hbound⟩ :=
    parseRowsAux_dels lines 0 (zerosMat nrows) [] [] List.Pairwise.nil
      (fun d hd => absurd hd (List.not_mem_nil d))
  have hcount := parseRowsAux_count lines 0 (zerosMat nrows) [] []
  have hdlt : ∀ d ∈ (parseRowsAux 0 (zerosMat nrows) [] [] lines).2.2, d < nrows := by
    intro d hd
    have := hbound d hd
    omega
  have hnames : (parseRowsAux 0 (zerosMat nrows) [] [] lines).2.1.length =
      nrows - (parseRowsAux 0 (zerosMat nrows) [] [] lines).2.2.length := by
    simp only [List.length_nil] at hcount
    omega
  have hdle : (parseRowsAux 0 (zerosMat nrows) [] [] lines).2.2.length ≤ nrows := by
    simp only [List.length_nil] at hcount
    omega
  have hKlen : (parseKept nrows lines).length =
      (parseRowsAux 0 (zerosMat nrows) [] [] lines).2.1.length := by
    unfold parseKept
    rw [List.length_map]
    rw [deleteIdxs_length _ _ hsort (fun d hd => by rw [hMlen]; exact hdlt d hd)]
    rw [hMlen, hnames]
  have hKrows : ∀ r ∈ parseKept nrows lines,
      r.length = (parseRowsAux 0 (zerosMat nrows) [] [] lines).2.1.length := by
    intro r hr
    unfold parseKept at hr
    rcases List.mem_map.mp hr with ⟨r0, hr0, rfl⟩
    have hr0mem : r0 ∈ (parseRowsAux 0 (zerosMat nrows) [] [] lines).1 :=
      (deleteIdxs_sublist _ _).subset hr0
    have hr0len : r0.length = nrows := hMrows r0 hr0mem
    rw [deleteIdxs_length _ _ hsort (fun d hd => by rw [hr0len]; exact hdlt d hd)]
    rw [hr0len, hnames]
  have hp2 : (parse nrows lines).2 =
      (parseRowsAux 0 (zerosMat nrows) [] [] lines).2.1 := rfl
  have hp1 : (parse nrows lines).1 = symmetrize (oneMinus (parseKept nrows lines)) := rfl
  have homlen : (oneMinus (parseKept nrows lines)).length = (parse nrows lines).2.length := by
    rw [oneMinus_length, hKlen, hp2]
  refine ⟨?_, ?_, ?_, ?_, ?_, ?_⟩
  · rw [hp2, parseRowsAux_names]
    rw [List.nil_append]
    rfl
  · rw [hp1, symmetrize_length, homlen]
  · intro r hr
    rw [hp1] at hr
    have := symmetrize_rows _ r hr
    rw [this, homlen]
  · intro i j
    rw [hp1]
    exact mget_symmetrize_symm _ i j
  · intro i
    rw [hp1]
    exact mget_symmetrize_diag _ i
  · intro i j hi hj hij
    rw [hp1]
    rw [mget_symmetrize_in _ i j (by rw [homlen]; exact hi) (by rw [homlen]; exact hj)]
    rw [if_neg hij]
    have hKl : (parseKept nrows lines).length = (parse nrows lines).2.length := by
      rw [hKlen, hp2]
    rw [mget_oneMinus (parseKept nrows lines) (parse nrows lines).2.length i j hKl
      (fun r hr => by rw [hKrows r hr, hp2]) hi hj]
    rw [mget_oneMinus (parseKept nrows lines) (parse nrows lines).2.length j i hKl
      (fun r hr => by rw [hKrows r hr, hp2]) hj hi]

/-- Claim C8 witness: a three-line input whose third line repeats the
first derived identifier; the duplicate is dropped, the kept names are
`[A, B]`, and the matrix diagonal is zero. -/
theorem claim_C8_witness :
    (parse 3 [( "A.fa", [0]), ( "B.fa", [1 / 2, 0]), ( "A.fa", [1 / 3, 1 / 4, 0])]).2 =
      dedupFirst ([( "A.fa", ([0] : List ℚ)), ( "B.fa", [1 / 2, 0]),
        ( "A.fa", [1 / 3, 1 / 4, 0])].map (fun l => derivedName l.1)) ∧
    mget (parse 3 [( "A.fa", [0]), ( "B.fa", [1 / 2, 0]), ( "A.fa", [1 / 3, 1 / 4, 0])]).1 1 1 = 0 := by
  have h := claim_C8 3 [( "A.fa", [0]), ( "B.fa", [1 / 2, 0]), ( "A.fa", [1 / 3, 1 / 4, 0])]
    (by rfl) (by with_unfolding_all decide)
  exact ⟨h.1, h.2.2.2.2.1 1⟩

end Pangraph
